import Mathlib

/-!
Verification of the `painter` resource/command/synchronization layer of the
`residue2` repository, against its specification.

The Rust sources embedded here (shallowly) are:
* `gamert/painter/src/image.rs`   — `ImageAccess`, `Image2d`, `is_format_depth`
* `gamert/painter/src/command.rs` — `GpuCommand::access_transitions`,
  `CommandBuffer::record` (transition-discovery pass and emission pass)
* `gamert/painter/src/sheets.rs`  — `Sheets::refresh_resolution`,
  `Sheets::acquire_next_image`, `Sheets::present_image`
* `gamert/painter/src/allocator.rs` — `Allocator::write_to_buffer_mem`
* `gamert/painter/src/buffer.rs`  — `Painter::new_buffer`, `Buffer::write_to_mem`
* `gamert/painter/src/sync.rs`    — `CpuFutureError`, `Painter::cpu_future_wait`

Device interactions (Vulkan calls) are modelled as explicit oracle inputs:
each fallible device call becomes an `Except`-valued argument supplying the
result the device would return.
-/

namespace Residue

/-- Image access states: the `ImageAccess` enum of `painter/src/image.rs`. -/
inductive ImageAccess where
  | none
  | transferRead
  | transferWrite
  | shaderRead
  | pipelineAttachment
  | present
deriving DecidableEq, Repr

/-- Vulkan format codes that `is_format_depth` (image.rs) matches:
`D16_UNORM = 124`, `D32_SFLOAT = 126`, `D16_UNORM_S8_UINT = 128`,
`D24_UNORM_S8_UINT = 129`, `D32_SFLOAT_S8_UINT = 130`.
Formats are modelled as their raw Vulkan numeric codes. -/
def is_format_depth (format : Nat) : Bool :=
  format == 124 || format == 126 || format == 128 || format == 129 || format == 130

/-- The fields of `Image2d` (image.rs) that the command recorder reads: the raw
`vk::Image` handle (modelled as a `Nat` identifier, used as the accumulation key)
and the `vk::Format` (a numeric code, consulted only through `is_format_depth`). -/
structure Image2d where
  image : Nat
  format : Nat
deriving DecidableEq, Repr

/-- `ImageTransitionInfo` of command.rs: one `(image, old_access, new_access)`
requirement implied by a command. -/
structure ImageTransitionInfo where
  image : Image2d
  old_access : Option ImageAccess
  new_access : Option ImageAccess
deriving DecidableEq, Repr

/-- The `GpuCommand` variants of command.rs.  The `RunRenderPass` payload
(render pass handle, framebuffer, clear values, nested draw commands) is not
modelled: `access_transitions` returns the empty vector for it, so no part of
the barrier computation reads the payload.  `CopyBufferToImageComplete` keeps
its buffer handle as a `Nat`. -/
inductive GpuCommand where
  | imageAccessInit (image : Image2d) (access : ImageAccess)
  | imageAccessHint (image : Image2d) (access : ImageAccess)
  | blitFullImage (src : Image2d) (dst : Image2d)
  | runRenderPass
  | copyBufferToImageComplete (buffer : Nat) (image : Image2d)
deriving DecidableEq, Repr

/-- `GpuCommand::access_transitions` (command.rs lines 68-107), case for case. -/
def GpuCommand.access_transitions : GpuCommand → List ImageTransitionInfo
  | .imageAccessInit image access =>
      [⟨image, Option.some ImageAccess.none, Option.some access⟩]
  | .imageAccessHint image access =>
      [⟨image, Option.none, Option.some access⟩]
  | .blitFullImage src dst =>
      [⟨src, Option.none, Option.some ImageAccess.transferRead⟩,
       ⟨dst, Option.none, Option.some ImageAccess.transferWrite⟩]
  | .runRenderPass => []
  | .copyBufferToImageComplete _ image =>
      [⟨image, Option.none, Option.some ImageAccess.transferWrite⟩]

/-- One accumulated `(command_index, access)` pair of the discovery pass. -/
abbrev AccessEntry := Nat × ImageAccess

/-- The `image_accesses : HashMap<vk::Image, (&Image2d, Vec<(usize, ImageAccess)>)>`
of `CommandBuffer::record`, modelled as a partial map from the raw image handle.
(The hash map's iteration order is unspecified; all properties proved below are
per-image, so only this partial-map view of the container is needed.) -/
abbrev ImageAccessMap := Nat → Option (Image2d × List AccessEntry)

/-- The `old_access` push of the discovery loop (command.rs lines 209-216):
push `(command_idx, old)` when the accumulated list is still empty. -/
def pushOld (command_idx : Nat) (old : Option ImageAccess)
    (ts : List AccessEntry) : List AccessEntry :=
  match old with
  | Option.some old_access =>
      if ts.length = 0 then ts ++ [(command_idx, old_access)] else ts
  | Option.none => ts

/-- The `new_access` push of the discovery loop (command.rs lines 217-228):
push `(command_idx + 1, new)` unless the list's last accumulated access equals
`new` (the condition `(ts.map Prod.snd).getLast? = some new` states exactly
"the list has a last entry and its access equals `new`"; when the list is
empty the push always happens, as in the source's `None` arm). -/
def pushNew (command_idx : Nat) (new : Option ImageAccess)
    (ts : List AccessEntry) : List AccessEntry :=
  match new with
  | Option.some new_access =>
      if (ts.map Prod.snd).getLast? = Option.some new_access then ts
      else ts ++ [(command_idx + 1, new_access)]
  | Option.none => ts

/-- The push steps of the discovery loop of `CommandBuffer::record`
(command.rs lines 209-228) on one image's accumulated list: the `old_access`
push followed by the `new_access` push. -/
def pushTransition (command_idx : Nat) (t : ImageTransitionInfo)
    (ts0 : List AccessEntry) : List AccessEntry :=
  pushNew command_idx t.new_access (pushOld command_idx t.old_access ts0)

/-- Processing of a single `ImageTransitionInfo` inside the discovery loop
(command.rs lines 205-229): `entry(key).or_insert((image, vec![]))` — the map
keeps the first `Image2d` inserted for a handle — then the pushes of
`pushTransition` on that entry's accumulated list. -/
def recordTransition (command_idx : Nat) (t : ImageTransitionInfo)
    (m : ImageAccessMap) : ImageAccessMap :=
  fun k =>
    if k = t.image.image then
      Option.some (((m t.image.image).getD (t.image, [])).1,
        pushTransition command_idx t ((m t.image.image).getD (t.image, [])).2)
    else m k

/-- The discovery pass of `CommandBuffer::record` (command.rs lines 202-230),
started at command index `command_idx`: for each command in order, fold its
`access_transitions` into the map. -/
def discoverFrom (command_idx : Nat) (cmds : List GpuCommand)
    (m : ImageAccessMap) : ImageAccessMap :=
  match cmds with
  | [] => m
  | c :: rest =>
      discoverFrom (command_idx + 1) rest
        (c.access_transitions.foldl (fun acc t => recordTransition command_idx t acc) m)

/-- The full discovery pass over a command list, starting from the empty map. -/
def imageAccesses (cmds : List GpuCommand) : ImageAccessMap :=
  discoverFrom 0 cmds (fun _ => Option.none)

/-- The accumulated `(command_index, access)` list for the image with raw
handle `X` (the `transitions_needed` vector of the emission pass). -/
def transitionsNeeded (cmds : List GpuCommand) (X : Nat) : List AccessEntry :=
  match imageAccesses cmds X with
  | Option.some entry => entry.2
  | Option.none => []

/-- The accumulated access-state sequence for handle `X`: the accumulated list
with the command indices dropped.  Adjacent equal states are never recorded, so
this sequence is coalesced by construction. -/
def accessStates (cmds : List GpuCommand) (X : Nat) : List ImageAccess :=
  (transitionsNeeded cmds X).map Prod.snd

/-- `Iterator::position` over the accumulated list, as used in the emission
pass: index of the first entry whose recorded command index equals `target`. -/
def positionEq (target : Nat) : List AccessEntry → Option Nat
  | [] => Option.none
  | e :: rest =>
      if e.1 = target then Option.some 0 else (positionEq target rest).map (· + 1)

/-- The data of one emitted `vk::ImageMemoryBarrier` that the specification
constrains: the image handle, the source and destination access states, and the
depth-format flag. The stage masks, access-flag masks and layouts of the real
barrier are fixed functions (image.rs lines 53-116) of exactly these fields. -/
structure Barrier where
  image : Nat
  old_access : ImageAccess
  new_access : ImageAccess
  is_depth : Bool
deriving DecidableEq, Repr

/-- The per-image barrier decision of the emission pass (command.rs lines
233-265) for the command at index `command_idx`: find the first accumulated
entry scheduled at `command_idx + 1`; skip if there is none, if it is the
image's first entry, or if the two adjacent accesses are equal; otherwise emit
one barrier from the previous accumulated access to this one. -/
def barrierFor (img : Image2d) (ts : List AccessEntry) (command_idx : Nat) :
    Option Barrier :=
  (positionEq (command_idx + 1) ts).bind (fun access_idx =>
    if access_idx = 0 then Option.none
    else
      if (ts.getD (access_idx - 1) (0, ImageAccess.none)).2
          = (ts.getD access_idx (0, ImageAccess.none)).2 then Option.none
      else
        Option.some ⟨img.image, (ts.getD (access_idx - 1) (0, ImageAccess.none)).2,
          (ts.getD access_idx (0, ImageAccess.none)).2, is_format_depth img.format⟩)

/-- The barriers emitted for the image with raw handle `X` during
`CommandBuffer::record`, as `(command_idx, barrier)` events.  An event
`(i, b)` means: while emitting the command at index `i`, the barrier `b` is
recorded into the command stream immediately before that command (the emission
pass emits all due barriers for index `i` and only then the command itself).
The relative order of same-index barriers of different images follows the hash
map's unspecified iteration order, so only the per-image stream is modelled. -/
def barrierEventsFor (cmds : List GpuCommand) (X : Nat) : List (Nat × Barrier) :=
  match imageAccesses cmds X with
  | Option.none => []
  | Option.some entry =>
      (List.range cmds.length).filterMap (fun command_idx =>
        (barrierFor entry.1 entry.2 command_idx).map (fun b => (command_idx, b)))

/-- Does this command mention image handle `X`  (i.e. does any of its implied
transitions touch it)? -/
def touchesImage (X : Nat) (c : GpuCommand) : Bool :=
  c.access_transitions.any (fun t => t.image.image == X)

/-- No `BlitFullImage` command in the list blits an image onto itself (two
transitions of a single command for the same raw handle). -/
def NoSelfBlit (cmds : List GpuCommand) : Prop :=
  ∀ src dst, GpuCommand.blitFullImage src dst ∈ cmds → src.image ≠ dst.image

/-- The rank annotation for a barrier event: the number of commands before
index `ci` that touch image handle `X`.  Two command lists place a barrier
"immediately before the same dependent command of `X`" exactly when the
annotated events agree. -/
def rankAmong (cmds : List GpuCommand) (X : Nat) (ci : Nat) : Nat :=
  (cmds.take ci).countP (touchesImage X)

/-- Barrier events annotated by the dependent command's rank among the
commands touching `X`. -/
def annotatedEventsFor (cmds : List GpuCommand) (X : Nat) : List (Nat × Barrier) :=
  (barrierEventsFor cmds X).map (fun e => (rankAmong cmds X e.1, e.2))

/-! ### Concrete command lists used by the scenario claims -/

/-- A color-format image (format code 44 = `B8G8R8A8_UNORM`, not a depth format). -/
def imgA : Image2d := ⟨1, 44⟩

/-- A second color-format image with a distinct raw handle. -/
def imgB : Image2d := ⟨2, 44⟩

/-- The command list of the §8 scenario: `access_init(None)`, then
`access_hint(TransferWrite)`, then `access_hint(ShaderRead)`, all on one image. -/
def scenarioCmds : List GpuCommand :=
  [GpuCommand.imageAccessInit imgA ImageAccess.none,
   GpuCommand.imageAccessHint imgA ImageAccess.transferWrite,
   GpuCommand.imageAccessHint imgA ImageAccess.shaderRead]

/-- A one-command list that blits an image onto itself: both transitions of the
single `BlitFullImage` command touch the same raw handle. -/
def selfBlitCmds : List GpuCommand := [GpuCommand.blitFullImage imgA imgA]

/-- The `scenarioCmds` list interleaved with independent commands on `imgB`. -/
def twoImageCmds : List GpuCommand :=
  [GpuCommand.imageAccessInit imgA ImageAccess.none,
   GpuCommand.imageAccessHint imgB ImageAccess.transferWrite,
   GpuCommand.imageAccessHint imgA ImageAccess.transferWrite,
   GpuCommand.imageAccessHint imgB ImageAccess.shaderRead,
   GpuCommand.imageAccessHint imgA ImageAccess.shaderRead]

/-! ### Device results

`vk::Result` values distinguished by the modelled code paths. -/

/-- The `vk::Result` error codes this layer branches on.  `errorOther` stands
for every further error code, carried as its raw value. -/
inductive VkResult where
  | errorOutOfDateKhr
  | errorDeviceLost
  | errorOther (code : Int)
deriving DecidableEq, Repr

deriving instance DecidableEq for Except

/-! ### Presentation surface manager (`painter/src/sheets.rs`) -/

/-- A `vk::Extent2D`. -/
structure Extent2D where
  width : Nat
  height : Nat
deriving DecidableEq, Repr

/-- The mutable state of `Sheets` that `refresh_resolution` /
`acquire_next_image` touch: the extents of the swapchain images, the recorded
surface resolution, and a generation counter standing for the swapchain handle
(bumped each time the swapchain is recreated). -/
structure SheetsSt where
  swapchainImageExtents : List Extent2D
  surfaceResolution : Extent2D
  swapchainGen : Nat
deriving DecidableEq, Repr

/-- The typed failure points of `Sheets::refresh_resolution` (sheets.rs lines
150-238); the code reports them as formatted strings. `atInitRecordSubmit`
collapses the record / fence-creation / submit / wait / reset tail, all of
which just propagate a device error. -/
inductive SheetsError where
  | atSurfaceCapabilities (e : VkResult)
  | atSwapchainCreation (e : VkResult)
  | atFetchImages (e : VkResult)
  | atInitRecordSubmit (e : VkResult)
deriving DecidableEq, Repr

/-- Device oracle for one `refresh_resolution` call: the surface-capabilities
query (yielding the newly reported `current_extent`), the swapchain creation,
the swapchain-image fetch (yielding how many images the device returns), and
the record/submit/wait tail that initializes the new images to `Present`. -/
structure RefreshStep where
  caps : Except VkResult Extent2D
  create : Except VkResult Unit
  images : Except VkResult Nat
  initSubmit : Except VkResult Unit
deriving DecidableEq, Repr

/-- `Sheets::refresh_resolution` (sheets.rs lines 150-238): query the surface
capabilities, build a new swapchain at the reported extent, fetch its images
(each wrapped with `extent = new_resolution`), record+submit+wait the
`ImageAccessInit Present` list for them, and only then install the new
swapchain, image set and resolution.  Every failure happens before the state
is mutated, so an error leaves the state unchanged. -/
def refresh_resolution (step : RefreshStep) (s : SheetsSt) :
    Except SheetsError SheetsSt :=
  match step.caps with
  | Except.error e => Except.error (SheetsError.atSurfaceCapabilities e)
  | Except.ok new_resolution =>
    match step.create with
    | Except.error e => Except.error (SheetsError.atSwapchainCreation e)
    | Except.ok _ =>
      match step.images with
      | Except.error e => Except.error (SheetsError.atFetchImages e)
      | Except.ok count =>
        match step.initSubmit with
        | Except.error e => Except.error (SheetsError.atInitRecordSubmit e)
        | Except.ok _ =>
            Except.ok
              { swapchainImageExtents := List.replicate count new_resolution,
                surfaceResolution := new_resolution,
                swapchainGen := s.swapchainGen + 1 }

/-- The typed failure points of `Sheets::acquire_next_image` (sheets.rs lines
240-281). -/
inductive AcquireError where
  | missingSyncObjects
  | atAcquire (e : VkResult)
  | atRefresh (e : SheetsError)
  | atFenceWait (e : VkResult)
  | atFenceReset (e : VkResult)
deriving DecidableEq, Repr

/-- Device oracle for one iteration of the acquire loop: the
`acquire_next_image` device call — `ok (index, suboptimal)` or an error code —
plus, should this iteration refresh, the refresh oracle and the fence
wait/reset results. -/
structure AcquireStep where
  acquire : Except VkResult (Nat × Bool)
  refresh : RefreshStep
  fenceWait : Except VkResult Unit
  fenceReset : Except VkResult Unit
deriving DecidableEq, Repr

/-- The refresh arm of the acquire loop (sheets.rs lines 266-275): run
`refresh_resolution`, then — when a fence was supplied — wait and reset it;
on success hand back the refreshed state for the next loop iteration. -/
def refreshAndRecycle (hasFence : Bool) (step : AcquireStep) (s : SheetsSt) :
    Except (AcquireError × SheetsSt) SheetsSt :=
  match refresh_resolution step.refresh s with
  | Except.error e => Except.error (AcquireError.atRefresh e, s)
  | Except.ok s' =>
      if hasFence then
        match step.fenceWait with
        | Except.error e => Except.error (AcquireError.atFenceWait e, s')
        | Except.ok _ =>
          match step.fenceReset with
          | Except.error e => Except.error (AcquireError.atFenceReset e, s')
          | Except.ok _ => Except.ok s'
      else Except.ok s'

/-- The `loop` of `Sheets::acquire_next_image` (sheets.rs lines 253-279),
driven by a finite oracle stream (one `AcquireStep` per iteration; `none`
means the stream ran out while the loop would still be running).  A device
acquire returning `Ok (i, false)` ends the loop with `i`; `Ok (_, true)`
(suboptimal) and `Err ERROR_OUT_OF_DATE_KHR` both take the refresh arm and
retry; any other error code ends the loop with the `atAcquire` error. -/
def acquireLoop (hasFence : Bool) (steps : List AcquireStep) (s : SheetsSt) :
    Option (Except AcquireError Nat × SheetsSt) :=
  match steps with
  | [] => Option.none
  | step :: rest =>
    match step.acquire with
    | Except.ok (i_id, refresh_needed) =>
        if refresh_needed then
          match refreshAndRecycle hasFence step s with
          | Except.error es => Option.some (Except.error es.1, es.2)
          | Except.ok s' => acquireLoop hasFence rest s'
        else Option.some (Except.ok i_id, s)
    | Except.error e =>
        if e = VkResult.errorOutOfDateKhr then
          match refreshAndRecycle hasFence step s with
          | Except.error es => Option.some (Except.error es.1, es.2)
          | Except.ok s' => acquireLoop hasFence rest s'
        else Option.some (Except.error (AcquireError.atAcquire e), s)

/-- `Sheets::acquire_next_image` (sheets.rs lines 240-281).  `hasSemaphore` /
`hasFence` model whether the optional `GpuFuture` / `CpuFuture` arguments were
supplied (their raw handles are non-null exactly when supplied); with neither,
the function returns the error before any device call. -/
def acquire_next_image (hasSemaphore hasFence : Bool) (steps : List AcquireStep)
    (s : SheetsSt) : Option (Except AcquireError Nat × SheetsSt) :=
  if !hasFence && !hasSemaphore then
    Option.some (Except.error AcquireError.missingSyncObjects, s)
  else acquireLoop hasFence steps s

/-- `Sheets::present_image` (sheets.rs lines 283-311): the device
`queue_present` result is `ok suboptimal` or an error code; the function
succeeds on `ok` and on `ERROR_OUT_OF_DATE_KHR`, and propagates every other
error code. -/
def present_image (queuePresent : Except VkResult Bool) : Except VkResult Unit :=
  match queuePresent with
  | Except.ok _ => Except.ok ()
  | Except.error e =>
      if e ≠ VkResult.errorOutOfDateKhr then Except.error e else Except.ok ()

/-! ### Allocator write path (`painter/src/allocator.rs`) -/

/-- The part of a `gpu_allocator::vulkan::Allocation` the write path reads:
`mapped_slice_mut()` yields the mapped byte region, or `None` when the backing
memory type is not host visible.  Bytes are modelled as `Nat`s. -/
structure RawAllocation where
  mappedRegion : Option (List Nat)
deriving DecidableEq, Repr

/-- The error strings `Allocator::write_to_buffer_mem` can return. -/
inductive AllocWriteError where
  | bufferNotFound
  | bufferMemoryCantBeMapped
deriving DecidableEq, Repr

/-- The observable outcome of a write: success with the new mapped-region
contents, a returned error, or a Rust panic (out-of-bounds slice index). -/
inductive WriteOutcome where
  | ok (newRegion : List Nat)
  | err (e : AllocWriteError)
  | panicked
deriving DecidableEq, Repr

/-- `Allocator::write_to_buffer_mem` (allocator.rs lines 70-80): look up the
allocation for the buffer, get its mapped region, then
`data_ptr[..data.len()].copy_from_slice(data)` — which panics when
`data.len()` exceeds the mapped region, and otherwise overwrites the first
`data.len()` bytes. -/
def write_to_buffer_mem (allocation : Option RawAllocation) (data : List Nat) :
    WriteOutcome :=
  match allocation with
  | Option.none => WriteOutcome.err AllocWriteError.bufferNotFound
  | Option.some a =>
    match a.mappedRegion with
    | Option.none => WriteOutcome.err AllocWriteError.bufferMemoryCantBeMapped
    | Option.some region =>
        if data.length ≤ region.length then
          WriteOutcome.ok (data ++ region.drop data.length)
        else WriteOutcome.panicked

/-! ### Buffer creation and write (`painter/src/buffer.rs`) -/

/-- The `BufferError` enum of buffer.rs. -/
inductive BufferError where
  | CreateError (e : VkResult)
  | MemoryAllocationError
  | MemoryNotAllocatedError
  | MemoryBindError (e : VkResult)
  | MemoryWriteError
deriving DecidableEq, Repr

/-- The `Buffer` struct of buffer.rs (the delete-signal channel is not
modelled: it carries no data the claims constrain). -/
structure Buffer where
  buffer : Nat
  size : Nat
  bound_mem : Option RawAllocation
deriving DecidableEq, Repr

/-- Device oracle for `Painter::new_buffer` when an allocator is supplied: the
`allocate_mem` result and the `bind_buffer_memory` result. -/
structure BufferAllocOracle where
  allocate : Except Unit RawAllocation
  bind : Except VkResult Unit
deriving DecidableEq, Repr

/-- `Painter::new_buffer` (buffer.rs lines 59-97): create the buffer handle;
when an allocator is supplied, allocate and bind device memory (propagating
either failure) — but the allocation is dropped on the spot, and the returned
`Buffer` is built with `bound_mem: None` on every path. -/
def new_buffer (size : Nat) (createResult : Except VkResult Nat)
    (mem_allocator : Option BufferAllocOracle) : Except BufferError Buffer :=
  match createResult with
  | Except.error e => Except.error (BufferError.CreateError e)
  | Except.ok buffer =>
    match mem_allocator with
    | Option.some oracle =>
      match oracle.allocate with
      | Except.error _ => Except.error BufferError.MemoryAllocationError
      | Except.ok _allocation =>
        match oracle.bind with
        | Except.error e => Except.error (BufferError.MemoryBindError e)
        | Except.ok _ => Except.ok ⟨buffer, size, Option.none⟩
    | Option.none => Except.ok ⟨buffer, size, Option.none⟩

/-- The observable outcome of `Buffer::write_to_mem`: success with the updated
buffer, a returned `BufferError`, or a panic. -/
inductive BufferWriteOutcome where
  | ok (b : Buffer)
  | err (e : BufferError)
  | panicked
deriving DecidableEq, Repr

/-- `Buffer::write_to_mem` (buffer.rs lines 33-42): `bound_mem` must be
present (`MemoryNotAllocatedError`) and mappable (`MemoryWriteError`); then
`mapped_ptr[..data.len()].copy_from_slice(data)` as in the allocator path. -/
def write_to_mem (b : Buffer) (data : List Nat) : BufferWriteOutcome :=
  match b.bound_mem with
  | Option.none => BufferWriteOutcome.err BufferError.MemoryNotAllocatedError
  | Option.some a =>
    match a.mappedRegion with
    | Option.none => BufferWriteOutcome.err BufferError.MemoryWriteError
    | Option.some region =>
        if data.length ≤ region.length then
          BufferWriteOutcome.ok
            { b with bound_mem := Option.some ⟨Option.some (data ++ region.drop data.length)⟩ }
        else BufferWriteOutcome.panicked

/-! ### CPU future wait (`painter/src/sync.rs`) -/

/-- The `CpuFutureError` enum of sync.rs.  Its own doc strings read:
`CreateError` = "Error creating Vulkan Fence", `WaitError` = "Error waiting
for Vulkan Fence", `ResetError` = "Error resetting Vulkan Fence". -/
inductive CpuFutureError where
  | CreateError (e : VkResult)
  | WaitError (e : VkResult)
  | ResetError (e : VkResult)
deriving DecidableEq, Repr

/-- `Painter::cpu_future_wait` (sync.rs lines 56-64): the device
`wait_for_fences` result is propagated, its error mapped — as written in the
source — through `CpuFutureError::CreateError`. -/
def cpu_future_wait (wait_for_fences : Except VkResult Unit) :
    Except CpuFutureError Unit :=
  match wait_for_fences with
  | Except.error e => Except.error (CpuFutureError.CreateError e)
  | Except.ok _ => Except.ok ()

/-! ### Invariants of the discovery pass (proved below, used by the general
theorems about `CommandBuffer::record`) -/

/-- The shape invariant of one image's accumulated list after the discovery
pass has processed the first `i` commands of `cmds`: it is nonempty, every
recorded command index is at most `i`, recorded indices are nondecreasing,
adjacent accumulated accesses differ (runs are coalesced), and every entry but
the first was scheduled at `idx + 1` by a command `idx < i` that touches the
image. -/
def TsInv (cmds : List GpuCommand) (X : Nat) (i : Nat)
    (ts : List AccessEntry) : Prop :=
  ts ≠ [] ∧
  (∀ e ∈ ts, e.1 ≤ i) ∧
  (ts.map Prod.snd).Chain' (· ≠ ·) ∧
  (ts.map Prod.fst).Chain' (· ≤ ·) ∧
  (∀ j a, ts[j]? = Option.some a → 1 ≤ j →
    ∃ idx c, idx < i ∧ cmds[idx]? = Option.some c ∧ touchesImage X c = true
      ∧ a.1 = idx + 1)

/-- `TsInv` lifted to the optional map entry for handle `X`. -/
def MapInv (cmds : List GpuCommand) (X : Nat) (i : Nat)
    (v : Option (Image2d × List AccessEntry)) : Prop :=
  match v with
  | Option.none => True
  | Option.some p => TsInv cmds X i p.2

/-- The strictness invariant available when no command blits an image onto
itself: recorded command indices are strictly increasing. -/
def MapStrict (i : Nat) (v : Option (Image2d × List AccessEntry)) : Prop :=
  match v with
  | Option.none => True
  | Option.some p =>
      (∀ e ∈ p.2, e.1 ≤ i) ∧ (p.2.map Prod.fst).Chain' (· < ·)

/-! ## Theorems -/

/-! ### Properties of `positionEq` (the emission pass's first-match search) -/

theorem positionEq_some_lt {t : Nat} {l : List AccessEntry} {j : Nat}
    (h : positionEq t l = Option.some j) : j < l.length := by
  induction l generalizing j with
  | nil => simp [positionEq] at h
  | cons e rest ih =>
      rw [positionEq] at h
      by_cases he : e.1 = t
      · rw [if_pos he] at h
        cases h
        simp
      · rw [if_neg he] at h
        cases hpe : positionEq t rest with
        | none => rw [hpe] at h; simp at h
        | some j' =>
            rw [hpe] at h
            simp only [Option.map_some', Option.some.injEq] at h
            subst h
            simpa using Nat.succ_lt_succ (ih hpe)

theorem positionEq_some_get {t : Nat} {l : List AccessEntry} {j : Nat}
    (h : positionEq t l = Option.some j) :
    ∃ a, l[j]? = Option.some a ∧ a.1 = t := by
  induction l generalizing j with
  | nil => simp [positionEq] at h
  | cons e rest ih =>
      rw [positionEq] at h
      by_cases he : e.1 = t
      · rw [if_pos he] at h
        cases h
        exact ⟨e, by simp, he⟩
      · rw [if_neg he] at h
        cases hpe : positionEq t rest with
        | none => rw [hpe] at h; simp at h
        | some j' =>
            rw [hpe] at h
            simp only [Option.map_some', Option.some.injEq] at h
            subst h
            obtain ⟨a, ha, hat⟩ := ih hpe
            exact ⟨a, by simpa using ha, hat⟩

theorem positionEq_first {t : Nat} {l : List AccessEntry} {j : Nat}
    (h : positionEq t l = Option.some j) :
    ∀ k, k < j → ∀ a, l[k]? = Option.some a → a.1 ≠ t := by
  induction l generalizing j with
  | nil => simp [positionEq] at h
  | cons e rest ih =>
      rw [positionEq] at h
      by_cases he : e.1 = t
      · rw [if_pos he] at h
        cases h
        intro k hk
        exact absurd hk (Nat.not_lt_zero k)
      · rw [if_neg he] at h
        cases hpe : positionEq t rest with
        | none => rw [hpe] at h; simp at h
        | some j' =>
            rw [hpe] at h
            simp only [Option.map_some', Option.some.injEq] at h
            subst h
            intro k hk a ha
            cases k with
            | zero =>
                simp only [List.getElem?_cons_zero, Option.some.injEq] at ha
                rw [← ha]
                exact he
            | succ k' =>
                simp only [List.getElem?_cons_succ] at ha
                exact ih hpe k' (Nat.lt_of_succ_lt_succ hk) a ha

theorem positionEq_complete {t : Nat} {l : List AccessEntry} {j : Nat} {a : AccessEntry}
    (hj : l[j]? = Option.some a) (ha : a.1 = t)
    (hfirst : ∀ k, k < j → ∀ b, l[k]? = Option.some b → b.1 ≠ t) :
    positionEq t l = Option.some j := by
  induction l generalizing j with
  | nil => simp at hj
  | cons e rest ih =>
      cases j with
      | zero =>
          simp only [List.getElem?_cons_zero, Option.some.injEq] at hj
          rw [positionEq, if_pos (by rw [hj]; exact ha)]
      | succ j' =>
          simp only [List.getElem?_cons_succ] at hj
          have he : e.1 ≠ t := hfirst 0 (Nat.succ_pos j') e (by simp)
          rw [positionEq, if_neg he,
            ih hj (fun k hk b hb => hfirst (k + 1) (Nat.succ_lt_succ hk) b (by simpa using hb))]
          rfl

/-! ### Characterization of the per-image barrier decision -/

theorem getD_eq_of_getElem? {l : List AccessEntry} {j : Nat} {a d : AccessEntry}
    (h : l[j]? = Option.some a) : l.getD j d = a := by
  rw [List.getD_eq_getElem?_getD, h]
  rfl

theorem barrierFor_eq_some_intro {img : Image2d} {ts : List AccessEntry} {ci j : Nat}
    {a prev : AccessEntry}
    (hpos : positionEq (ci + 1) ts = Option.some j) (hj : j ≠ 0)
    (hget : ts[j]? = Option.some a) (hprev : ts[j - 1]? = Option.some prev)
    (hne : prev.2 ≠ a.2) :
    barrierFor img ts ci
      = Option.some ⟨img.image, prev.2, a.2, is_format_depth img.format⟩ := by
  rw [barrierFor, hpos, Option.some_bind, if_neg hj,
    getD_eq_of_getElem? hget, getD_eq_of_getElem? hprev, if_neg hne]

theorem barrierFor_eq_some_elim {img : Image2d} {ts : List AccessEntry} {ci : Nat}
    {b : Barrier} (h : barrierFor img ts ci = Option.some b) :
    ∃ j a prev, positionEq (ci + 1) ts = Option.some j ∧ j ≠ 0
      ∧ ts[j]? = Option.some a ∧ ts[j - 1]? = Option.some prev ∧ prev.2 ≠ a.2
      ∧ b = ⟨img.image, prev.2, a.2, is_format_depth img.format⟩ := by
  rw [barrierFor] at h
  cases hpos : positionEq (ci + 1) ts with
  | none => rw [hpos, Option.none_bind] at h; exact Option.noConfusion h
  | some j =>
      rw [hpos, Option.some_bind] at h
      by_cases hj : j = 0
      · rw [if_pos hj] at h; exact Option.noConfusion h
      · rw [if_neg hj] at h
        have hjlt : j < ts.length := positionEq_some_lt hpos
        have hjlt' : j - 1 < ts.length := Nat.lt_of_le_of_lt (Nat.sub_le j 1) hjlt
        have hget : ts[j]? = Option.some ts[j] := List.getElem?_eq_some.mpr ⟨hjlt, rfl⟩
        have hprev : ts[j - 1]? = Option.some ts[j - 1] :=
          List.getElem?_eq_some.mpr ⟨hjlt', rfl⟩
        rw [getD_eq_of_getElem? hget, getD_eq_of_getElem? hprev] at h
        by_cases hacc : ts[j - 1].2 = ts[j].2
        · rw [if_pos hacc] at h; exact Option.noConfusion h
        · rw [if_neg hacc] at h
          simp only [Option.some.injEq] at h
          exact ⟨j, ts[j], ts[j - 1], rfl, hj, hget, hprev, hacc, h.symm⟩

/-! ### Counting helpers -/

theorem length_filterMap_eq_countP {α β : Type} (f : α → Option β) (l : List α) :
    (l.filterMap f).length = l.countP (fun a => (f a).isSome) := by
  induction l with
  | nil => rfl
  | cons a rest ih =>
      rw [List.filterMap_cons, List.countP_cons]
      cases hfa : f a with
      | none => simpa [hfa] using ih
      | some b => simpa [hfa] using ih

theorem countP_range_bridge (n : Nat) (p : Nat → Bool) :
    (List.range n).countP p = ((Finset.range n).filter (fun i => p i = true)).card := by
  simp [List.countP_eq_length_filter, Finset.filter, Finset.card, Finset.range, Multiset.range]

/-- Counting by bijection: two boolean predicates over two ranges have the same
count when a function maps the witnesses of one bijectively onto those of the
other. -/
theorem countP_range_bij (n m : Nat) (p q : Nat → Bool) (f : Nat → Nat)
    (hmap : ∀ i, i < n → p i = true → f i < m ∧ q (f i) = true)
    (hinj : ∀ i, i < n → p i = true → ∀ i', i' < n → p i' = true → f i = f i' → i = i')
    (hsurj : ∀ j, j < m → q j = true → ∃ i, i < n ∧ p i = true ∧ f i = j) :
    (List.range n).countP p = (List.range m).countP q := by
  rw [countP_range_bridge, countP_range_bridge]
  refine Finset.card_bij (fun i _ => f i) ?_ ?_ ?_
  · intro i hi
    simp only [Finset.mem_filter, Finset.mem_range] at hi ⊢
    exact (hmap i hi.1 hi.2).imp id id
  · intro i₁ h₁ i₂ h₂ hf
    simp only [Finset.mem_filter, Finset.mem_range] at h₁ h₂
    exact hinj i₁ h₁.1 h₁.2 i₂ h₂.1 h₂.2 hf
  · intro j hj
    simp only [Finset.mem_filter, Finset.mem_range] at hj
    obtain ⟨i, hi, hpi, hfi⟩ := hsurj j hj.1 hj.2
    exact ⟨i, by simp [Finset.mem_filter, Finset.mem_range, hi, hpi], hfi⟩

theorem countP_range_one_le (L : Nat) :
    (List.range L).countP (fun j => decide (1 ≤ j)) = L - 1 := by
  induction L with
  | zero => rfl
  | succ L ih =>
      rw [List.range_succ, List.countP_append, ih]
      cases L with
      | zero => rfl
      | succ L' => simp

/-- Claim C2: for `access_init(None)`, `access_hint(TransferWrite)`,
`access_hint(ShaderRead)` on one image, `CommandBuffer::record` emits exactly
two barriers for it — `None → TransferWrite` immediately before the command at
index 1 (the `TransferWrite` hint) and `TransferWrite → ShaderRead` immediately
before the command at index 2 (the `ShaderRead` hint), in that order. -/
theorem C2_scenario_barriers :
    barrierEventsFor scenarioCmds imgA.image
      = [(1, ⟨imgA.image, ImageAccess.none, ImageAccess.transferWrite, false⟩),
         (2, ⟨imgA.image, ImageAccess.transferWrite, ImageAccess.shaderRead, false⟩)] := by
  decide

/-- Counterexample to claim C1 as stated: blitting an image onto itself gives
it the coalesced accumulated state sequence `[TransferRead, TransferWrite]`
(so the claim demands exactly 1 barrier), yet `CommandBuffer::record` emits 0
barriers for it — both accumulated entries are scheduled at the same command
index, and the emission pass only ever finds the first. -/
theorem C1_self_blit_counterexample :
    accessStates selfBlitCmds imgA.image
      = [ImageAccess.transferRead, ImageAccess.transferWrite]
    ∧ (barrierEventsFor selfBlitCmds imgA.image).length = 0
    ∧ (barrierEventsFor selfBlitCmds imgA.image).length
        ≠ (accessStates selfBlitCmds imgA.image).length - 1 := by
  decide

/-- Counterexample to claim C3 as stated: an `ImageAccessInit` whose declared
access is `None`, as the first mention of its image, emits no barrier at all
(the `None → None` transition is coalesced away), while the claim demands an
initial layout transition from `None` to the declared access. -/
theorem C3_init_none_counterexample :
    barrierEventsFor [GpuCommand.imageAccessInit imgA ImageAccess.none] imgA.image = []
    ∧ ∀ p : Nat × Barrier,
        p ∉ barrierEventsFor [GpuCommand.imageAccessInit imgA ImageAccess.none] imgA.image := by
  have h : barrierEventsFor [GpuCommand.imageAccessInit imgA ImageAccess.none] imgA.image
      = [] := by decide
  exact ⟨h, fun p hp => by rw [h] at hp; exact (List.not_mem_nil p) hp⟩

/-- `refreshAndRecycle` never reports an `atAcquire` error: its failures stem
from the refresh itself or from the fence wait/reset. -/
theorem refreshAndRecycle_ne_atAcquire (hasFence : Bool) (step : AcquireStep)
    (s : SheetsSt) (e : AcquireError) (s' : SheetsSt)
    (h : refreshAndRecycle hasFence step s = Except.error (e, s')) :
    ∀ e', e ≠ AcquireError.atAcquire e' := by
  intro e'
  unfold refreshAndRecycle at h
  split at h
  · cases h
    simp
  · split at h
    · split at h
      · cases h
        simp
      · split at h
        · cases h
          simp
        · exact Except.noConfusion h
    · exact Except.noConfusion h

/-- Claim C5: the acquire loop of `Sheets::acquire_next_image`
(1) never surfaces the stale (`ERROR_OUT_OF_DATE_KHR`) acquire result as an
error to the caller; (2) on a stale acquire whose refresh succeeds (surface
capabilities report extent `E`, `count` images fetched, init submission and
fence wait/reset all fine) it rebuilds the entire image set at extent `E`,
installs `E` as the surface resolution, bumps the swapchain, and retries the
loop on the remaining stream without caller intervention; (3) a device acquire
returning a valid index with no refresh needed ends the loop with that index. -/
theorem C5_acquire_stale_recovery :
    (∀ (hasFence : Bool) (steps : List AcquireStep) (s : SheetsSt)
        (r : AcquireError) (s' : SheetsSt),
        acquireLoop hasFence steps s = Option.some (Except.error r, s') →
        r ≠ AcquireError.atAcquire VkResult.errorOutOfDateKhr)
    ∧ (∀ (hasFence : Bool) (step : AcquireStep) (rest : List AcquireStep)
        (s : SheetsSt) (E : Extent2D) (count : Nat),
        step.acquire = Except.error VkResult.errorOutOfDateKhr →
        step.refresh = ⟨Except.ok E, Except.ok (), Except.ok count, Except.ok ()⟩ →
        step.fenceWait = Except.ok () → step.fenceReset = Except.ok () →
        acquireLoop hasFence (step :: rest) s
          = acquireLoop hasFence rest ⟨List.replicate count E, E, s.swapchainGen + 1⟩)
    ∧ (∀ (hasFence : Bool) (step : AcquireStep) (rest : List AcquireStep)
        (s : SheetsSt) (i : Nat),
        step.acquire = Except.ok (i, false) →
        acquireLoop hasFence (step :: rest) s = Option.some (Except.ok i, s)) := by
  refine ⟨?_, ?_, ?_⟩
  · intro hasFence steps
    induction steps with
    | nil => intro s r s' h; simp [acquireLoop] at h
    | cons step rest ih =>
        intro s r s' h
        unfold acquireLoop at h
        split at h
        · split at h
          · split at h
            · rename_i es heqrr
              cases h
              exact refreshAndRecycle_ne_atAcquire hasFence step s es.1 es.2 heqrr _
            · exact ih _ r s' h
          · simp at h
        · split at h
          · split at h
            · rename_i es heqrr
              cases h
              exact refreshAndRecycle_ne_atAcquire hasFence step s es.1 es.2 heqrr _
            · exact ih _ r s' h
          · rename_i e hacq hne
            cases h
            intro hcontra
            cases hcontra
            exact hne rfl
  · intro hasFence step rest s E count hacq href hw hr
    obtain ⟨acq, refresh, fw, fr⟩ := step
    simp only at hacq href hw hr
    subst hacq
    subst href
    subst hw
    subst hr
    cases hasFence <;> rfl
  · intro hasFence step rest s i hacq
    obtain ⟨acq, refresh, fw, fr⟩ := step
    simp only at hacq
    subst hacq
    rfl

/-- Witness for C5: the §8 scenario.  The acquire stream reports a stale
surface once (surface now 640×480, 3 images) and then yields index 2: the loop
returns index 2 with the image set rebuilt at 640×480, without caller
intervention. -/
theorem C5_acquire_stale_recovery_witness :
    acquireLoop true
      [⟨Except.error VkResult.errorOutOfDateKhr,
        ⟨Except.ok ⟨640, 480⟩, Except.ok (), Except.ok 3, Except.ok ()⟩,
        Except.ok (), Except.ok ()⟩,
       ⟨Except.ok (2, false),
        ⟨Except.ok ⟨0, 0⟩, Except.ok (), Except.ok 0, Except.ok ()⟩,
        Except.ok (), Except.ok ()⟩]
      ⟨List.replicate 3 ⟨800, 600⟩, ⟨800, 600⟩, 0⟩
      = Option.some (Except.ok 2, ⟨List.replicate 3 ⟨640, 480⟩, ⟨640, 480⟩, 1⟩) := by
  rw [C5_acquire_stale_recovery.2.1 true _ _ _ ⟨640, 480⟩ 3 rfl rfl rfl rfl]
  exact C5_acquire_stale_recovery.2.2 true _ [] _ 2 rfl

/-- Claim C6: `Sheets::present_image` succeeds exactly when the device present
call succeeds or fails with the stale `ERROR_OUT_OF_DATE_KHR` code, and
propagates every other device error. -/
theorem C6_present_stale_nonfatal :
    (∀ r : Except VkResult Bool,
        present_image r = Except.ok ()
          ↔ (∃ b, r = Except.ok b) ∨ r = Except.error VkResult.errorOutOfDateKhr)
    ∧ ∀ e : VkResult, e ≠ VkResult.errorOutOfDateKhr →
        present_image (Except.error e) = Except.error e := by
  constructor
  · intro r
    cases r with
    | ok b => simp [present_image]
    | error e =>
        by_cases he : e = VkResult.errorOutOfDateKhr <;>
          simp [present_image, he]
  · intro e he
    simp [present_image, he]

/-- Witness for C6: a device-lost present error is propagated. -/
theorem C6_present_stale_nonfatal_witness :
    present_image (Except.error VkResult.errorDeviceLost)
      = Except.error VkResult.errorDeviceLost :=
  C6_present_stale_nonfatal.2 VkResult.errorDeviceLost (by decide)

/-- Counterexample to claim C7 as stated: writing 2 bytes into a 1-byte mapped
region panics (Rust slice indexing) instead of failing with any returned
error — no `WriteOutOfBounds` error exists in the code. -/
theorem C7_oob_write_counterexample :
    write_to_buffer_mem (Option.some ⟨Option.some [0]⟩) [1, 2] = WriteOutcome.panicked
    ∧ (∀ e, write_to_buffer_mem (Option.some ⟨Option.some [0]⟩) [1, 2] ≠ WriteOutcome.err e)
    ∧ ∀ r, write_to_buffer_mem (Option.some ⟨Option.some [0]⟩) [1, 2] ≠ WriteOutcome.ok r := by
  have h : write_to_buffer_mem (Option.some ⟨Option.some [0]⟩) [1, 2]
      = WriteOutcome.panicked := by decide
  exact ⟨h, fun e => by rw [h]; simp, fun r => by rw [h]; simp⟩

/-- Claim C7 (amended): the allocator write fails with the not-mappable error
when the allocation's memory is not host visible; when the data fits the
mapped region it overwrites the first `data.length` bytes and succeeds; when
the data exceeds the mapped region it panics (no out-of-bounds error value is
ever returned). -/
theorem C7_write_behavior :
    ∀ (a : RawAllocation) (data : List Nat),
      (a.mappedRegion = Option.none →
        write_to_buffer_mem (Option.some a) data
          = WriteOutcome.err AllocWriteError.bufferMemoryCantBeMapped)
      ∧ (∀ region, a.mappedRegion = Option.some region → data.length ≤ region.length →
          write_to_buffer_mem (Option.some a) data
            = WriteOutcome.ok (data ++ region.drop data.length))
      ∧ (∀ region, a.mappedRegion = Option.some region → region.length < data.length →
          write_to_buffer_mem (Option.some a) data = WriteOutcome.panicked) := by
  intro a data
  refine ⟨?_, ?_, ?_⟩
  · intro h
    simp [write_to_buffer_mem, h]
  · intro region h hle
    simp [write_to_buffer_mem, h, hle]
  · intro region h hlt
    simp [write_to_buffer_mem, h, Nat.not_le.mpr hlt]

/-- Witness for C7 (amended): a fitting write succeeds and an oversized write
panics, on concrete allocations. -/
theorem C7_write_behavior_witness :
    write_to_buffer_mem (Option.some ⟨Option.some [9, 9, 9]⟩) [1, 2]
      = WriteOutcome.ok [1, 2, 9]
    ∧ write_to_buffer_mem (Option.some ⟨Option.some [9]⟩) [1, 2, 3]
      = WriteOutcome.panicked := by
  constructor
  · exact (C7_write_behavior ⟨Option.some [9, 9, 9]⟩ [1, 2]).2.1 [9, 9, 9] rfl (by decide)
  · exact (C7_write_behavior ⟨Option.some [9]⟩ [1, 2, 3]).2.2 [9] rfl (by decide)

/-- Claim C8 (documenting the code bug): a failed device wait — e.g. device
loss — comes back from `Painter::cpu_future_wait` wrapped in
`CpuFutureError::CreateError` (the fence-creation variant), and the dedicated
`WaitError` variant is never returned at all. -/
theorem C8_wait_error_is_create_error :
    cpu_future_wait (Except.error VkResult.errorDeviceLost)
      = Except.error (CpuFutureError.CreateError VkResult.errorDeviceLost)
    ∧ ∀ (r : Except VkResult Unit) (e : VkResult),
        cpu_future_wait r ≠ Except.error (CpuFutureError.WaitError e) := by
  refine ⟨rfl, ?_⟩
  intro r e
  cases r <;> simp [cpu_future_wait]

/-- Claim C9: every `Buffer` built by `Painter::new_buffer` comes back with
`bound_mem = None` — also when an allocator was supplied and the allocation
and binding both succeeded — so every later `Buffer::write_to_mem` on it
returns `MemoryNotAllocatedError` (and performs no write). -/
theorem C9_new_buffer_never_bound :
    ∀ (size : Nat) (createResult : Except VkResult Nat)
      (alloc : Option BufferAllocOracle) (b : Buffer),
      new_buffer size createResult alloc = Except.ok b →
      b.bound_mem = Option.none
      ∧ ∀ data, write_to_mem b data
          = BufferWriteOutcome.err BufferError.MemoryNotAllocatedError := by
  intro size createResult alloc b h
  have hb : b.bound_mem = Option.none := by
    cases createResult with
    | error e => simp [new_buffer] at h
    | ok buf =>
        cases alloc with
        | none =>
            simp only [new_buffer, Except.ok.injEq] at h
            rw [← h]
        | some oracle =>
            cases hallocr : oracle.allocate with
            | error u => simp [new_buffer, hallocr] at h
            | ok allocation =>
                cases hbind : oracle.bind with
                | error e => simp [new_buffer, hallocr, hbind] at h
                | ok u =>
                    simp only [new_buffer, hallocr, hbind, Except.ok.injEq] at h
                    rw [← h]
  exact ⟨hb, fun data => by simp [write_to_mem, hb]⟩

/-- Witness for C9: a buffer created with an allocator whose allocation and
binding both succeed still has no bound memory, and writing to it fails. -/
theorem C9_new_buffer_never_bound_witness :
    (Buffer.mk 7 16 Option.none).bound_mem = Option.none
    ∧ ∀ data, write_to_mem (Buffer.mk 7 16 Option.none) data
        = BufferWriteOutcome.err BufferError.MemoryNotAllocatedError :=
  C9_new_buffer_never_bound 16 (Except.ok 7)
    (Option.some ⟨Except.ok ⟨Option.some [0, 0]⟩, Except.ok ()⟩)
    ⟨7, 16, Option.none⟩ rfl

/-- Claim C10: `Sheets::acquire_next_image` called with neither a fence nor a
semaphore returns the missing-sync-objects error at once — for every oracle
stream (so no device acquire call is consumed) — and leaves the state
untouched. -/
theorem C10_acquire_requires_sync_object :
    ∀ (steps : List AcquireStep) (s : SheetsSt),
      acquire_next_image false false steps s
        = Option.some (Except.error AcquireError.missingSyncObjects, s) := by
  intro steps s
  rfl

/-! ### Basic facts about the discovery fold -/

theorem recordTransition_key (ci : Nat) (t : ImageTransitionInfo)
    (m : ImageAccessMap) :
    recordTransition ci t m t.image.image
      = Option.some (((m t.image.image).getD (t.image, [])).1,
          pushTransition ci t ((m t.image.image).getD (t.image, [])).2) := by
  simp [recordTransition]

theorem recordTransition_ne {k : Nat} (ci : Nat) (t : ImageTransitionInfo)
    (m : ImageAccessMap) (hk : k ≠ t.image.image) :
    recordTransition ci t m k = m k := by
  simp [recordTransition, hk]

theorem transitions_new_isSome {c : GpuCommand} {t : ImageTransitionInfo}
    (ht : t ∈ c.access_transitions) : ∃ n, t.new_access = Option.some n := by
  cases c <;> simp [GpuCommand.access_transitions] at ht
  case imageAccessInit img a => exact ⟨a, by rw [ht]⟩
  case imageAccessHint img a => exact ⟨a, by rw [ht]⟩
  case blitFullImage src dst =>
      cases ht with
      | inl h => exact ⟨ImageAccess.transferRead, by rw [h]⟩
      | inr h => exact ⟨ImageAccess.transferWrite, by rw [h]⟩
  case copyBufferToImageComplete buf img =>
      exact ⟨ImageAccess.transferWrite, by rw [ht]⟩

theorem touches_of_transition {X : Nat} {c : GpuCommand} {t : ImageTransitionInfo}
    (ht : t ∈ c.access_transitions) (hX : t.image.image = X) :
    touchesImage X c = true := by
  rw [touchesImage, List.any_eq_true]
  exact ⟨t, ht, by simp [hX]⟩

theorem not_touches_transitions {X : Nat} {c : GpuCommand}
    (h : touchesImage X c = false) :
    ∀ t ∈ c.access_transitions, t.image.image ≠ X := by
  intro t ht he
  rw [touches_of_transition ht he] at h
  exact Bool.noConfusion h

theorem foldRecord_ne {X : Nat} (i : Nat) (l : List ImageTransitionInfo)
    (m : ImageAccessMap) (h : ∀ t ∈ l, t.image.image ≠ X) :
    (l.foldl (fun acc t => recordTransition i t acc) m) X = m X := by
  induction l generalizing m with
  | nil => rfl
  | cons t rest ih =>
      rw [List.foldl_cons, ih _ (fun t' ht' => h t' (List.mem_cons_of_mem t ht'))]
      exact recordTransition_ne i t m
        (fun he => h t (List.mem_cons_self t rest) he.symm)

theorem discoverFrom_cons (i : Nat) (c : GpuCommand) (rest : List GpuCommand)
    (m : ImageAccessMap) :
    discoverFrom i (c :: rest) m
      = discoverFrom (i + 1) rest
          (c.access_transitions.foldl (fun acc t => recordTransition i t acc) m) := rfl

theorem discoverFrom_append (l₁ l₂ : List GpuCommand) :
    ∀ (i : Nat) (m : ImageAccessMap),
      discoverFrom i (l₁ ++ l₂) m
        = discoverFrom (i + l₁.length) l₂ (discoverFrom i l₁ m) := by
  induction l₁ with
  | nil => intro i m; simp [discoverFrom]
  | cons c rest ih =>
      intro i m
      rw [List.cons_append, discoverFrom_cons, ih, discoverFrom_cons]
      have hlen : i + (c :: rest).length = i + 1 + rest.length := by
        simp only [List.length_cons]
        omega
      rw [hlen]

theorem discoverFrom_no_touch {X : Nat} (l : List GpuCommand) :
    ∀ (i : Nat) (m : ImageAccessMap),
      (∀ c ∈ l, touchesImage X c = false) → (discoverFrom i l m) X = m X := by
  induction l with
  | nil => intro i m _; rfl
  | cons c rest ih =>
      intro i m h
      rw [discoverFrom_cons,
        ih _ _ (fun c' hc' => h c' (List.mem_cons_of_mem c hc'))]
      exact foldRecord_ne i _ m
        (not_touches_transitions (h c (List.mem_cons_self c rest)))

theorem recordTransition_isSome {X : Nat} (ci : Nat) (t : ImageTransitionInfo)
    (m : ImageAccessMap) (h : (m X).isSome) :
    ((recordTransition ci t m) X).isSome := by
  by_cases hk : X = t.image.image
  · subst hk
    rw [recordTransition_key]
    rfl
  · rw [recordTransition_ne ci t m hk]
    exact h

theorem recordTransition_key_isSome {X : Nat} (ci : Nat) (t : ImageTransitionInfo)
    (m : ImageAccessMap) (hX : t.image.image = X) :
    ((recordTransition ci t m) X).isSome := by
  subst hX
  rw [recordTransition_key]
  rfl

theorem foldRecord_isSome {X : Nat} (i : Nat) (l : List ImageTransitionInfo) :
    ∀ (m : ImageAccessMap), (m X).isSome →
      ((l.foldl (fun acc t => recordTransition i t acc) m) X).isSome := by
  induction l with
  | nil => intro m h; exact h
  | cons t rest ih =>
      intro m h
      rw [List.foldl_cons]
      exact ih _ (recordTransition_isSome i t m h)

theorem discoverFrom_isSome {X : Nat} (l : List GpuCommand) :
    ∀ (i : Nat) (m : ImageAccessMap), (m X).isSome →
      ((discoverFrom i l m) X).isSome := by
  induction l with
  | nil => intro i m h; exact h
  | cons c rest ih =>
      intro i m h
      rw [discoverFrom_cons]
      exact ih _ _ (foldRecord_isSome i _ m h)

theorem foldRecord_isSome_of_touch {X : Nat} (i : Nat) (c : GpuCommand)
    (m : ImageAccessMap) (h : touchesImage X c = true) :
    ((c.access_transitions.foldl (fun acc t => recordTransition i t acc) m) X).isSome := by
  rw [touchesImage, List.any_eq_true] at h
  obtain ⟨t, ht, hX⟩ := h
  obtain ⟨s, u, hsu⟩ := List.append_of_mem ht
  rw [hsu, List.foldl_append, List.foldl_cons]
  exact foldRecord_isSome i u _
    (recordTransition_key_isSome i t _ (by simpa using hX))

theorem discoverFrom_isSome_of_touch {X : Nat} {l : List GpuCommand}
    {c : GpuCommand} (hc : c ∈ l) (ht : touchesImage X c = true)
    (i : Nat) (m : ImageAccessMap) :
    ((discoverFrom i l m) X).isSome := by
  obtain ⟨s, u, hsu⟩ := List.append_of_mem hc
  subst hsu
  rw [discoverFrom_append, discoverFrom_cons]
  exact discoverFrom_isSome u _ _ (foldRecord_isSome_of_touch _ c _ ht)

/-! ### The discovery fold only appends -/

theorem pushTransition_nonempty (ci : Nat) (t : ImageTransitionInfo)
    (ts : List AccessEntry) (h : ts ≠ []) :
    pushTransition ci t ts = ts
      ∨ ∃ n, t.new_access = Option.some n
          ∧ (ts.map Prod.snd).getLast? ≠ Option.some n
          ∧ pushTransition ci t ts = ts ++ [(ci + 1, n)] := by
  obtain ⟨timg, told, tnew⟩ := t
  have hlen : ts.length ≠ 0 := fun h0 => h (List.length_eq_zero.mp h0)
  have hold : pushOld ci told ts = ts := by
    cases told with
    | none => rfl
    | some o => simp [pushOld, hlen]
  rw [pushTransition]
  simp only
  rw [hold]
  cases tnew with
  | none => left; rfl
  | some n =>
      by_cases hl : (ts.map Prod.snd).getLast? = Option.some n
      · left
        simp only [pushNew]
        rw [if_pos hl]
      · right
        exact ⟨n, rfl, hl, by simp only [pushNew]; rw [if_neg hl]⟩

theorem recordTransition_extend {X : Nat} (i : Nat) (t : ImageTransitionInfo)
    (m : ImageAccessMap) (img : Image2d) (ts : List AccessEntry)
    (hm : m X = Option.some (img, ts)) (hne : ts ≠ []) :
    ∃ ext, (recordTransition i t m) X = Option.some (img, ts ++ ext)
      ∧ ∀ e ∈ ext, e.1 = i + 1 := by
  by_cases hk : X = t.image.image
  · subst hk
    rw [recordTransition_key, hm]
    rcases pushTransition_nonempty i t ts hne with hpush | ⟨n, -, -, hpush⟩
    · exact ⟨[], by simp [hpush], by simp⟩
    · exact ⟨[(i + 1, n)], by simp [hpush], by simp⟩
  · rw [recordTransition_ne i t m hk, hm]
    exact ⟨[], by simp, by simp⟩

theorem foldRecord_extend {X : Nat} (i : Nat) (l : List ImageTransitionInfo) :
    ∀ (m : ImageAccessMap) (img : Image2d) (ts : List AccessEntry),
      m X = Option.some (img, ts) → ts ≠ [] →
      ∃ ext, (l.foldl (fun acc t => recordTransition i t acc) m) X
          = Option.some (img, ts ++ ext)
        ∧ ∀ e ∈ ext, e.1 = i + 1 := by
  induction l with
  | nil => intro m img ts hm hne; exact ⟨[], by simpa using hm, by simp⟩
  | cons t rest ih =>
      intro m img ts hm hne
      obtain ⟨ext₁, hm₁, hext₁⟩ := recordTransition_extend i t m img ts hm hne
      obtain ⟨ext₂, hm₂, hext₂⟩ := ih _ img (ts ++ ext₁) hm₁ (by simp [hne])
      refine ⟨ext₁ ++ ext₂, ?_, ?_⟩
      · rw [List.foldl_cons, hm₂, List.append_assoc]
      · intro e he
        rcases List.mem_append.mp he with h | h
        · exact hext₁ e h
        · exact hext₂ e h

theorem discoverFrom_extend {X : Nat} (l : List GpuCommand) :
    ∀ (i : Nat) (m : ImageAccessMap) (img : Image2d) (ts : List AccessEntry),
      m X = Option.some (img, ts) → ts ≠ [] →
      ∃ ext, (discoverFrom i l m) X = Option.some (img, ts ++ ext)
        ∧ ∀ e ∈ ext, i + 1 ≤ e.1 := by
  induction l with
  | nil => intro i m img ts hm hne; exact ⟨[], by simpa using hm, by simp⟩
  | cons c rest ih =>
      intro i m img ts hm hne
      obtain ⟨ext₁, hm₁, hext₁⟩ := foldRecord_extend i c.access_transitions m img ts hm hne
      obtain ⟨ext₂, hm₂, hext₂⟩ := ih (i + 1) _ img (ts ++ ext₁) hm₁ (by simp [hne])
      refine ⟨ext₁ ++ ext₂, ?_, ?_⟩
      · rw [discoverFrom_cons, hm₂, List.append_assoc]
      · intro e he
        rcases List.mem_append.mp he with h | h
        · exact Nat.le_of_eq (hext₁ e h).symm
        · exact Nat.le_trans (Nat.le_succ (i + 1)) (hext₂ e h)

/-! ### The shape invariant of the discovery pass -/

theorem mem_of_getLast?_eq {α : Type} {l : List α} {x : α}
    (h : l.getLast? = Option.some x) : x ∈ l := by
  obtain ⟨hne, hx⟩ := List.mem_getLast?_eq_getLast (show x ∈ l.getLast? from h)
  rw [hx]
  exact List.getLast_mem hne

theorem TsInv_mono {cmds : List GpuCommand} {X i i' : Nat} (hle : i ≤ i')
    {ts : List AccessEntry} (h : TsInv cmds X i ts) : TsInv cmds X i' ts := by
  obtain ⟨h1, h2, h3, h4, h5⟩ := h
  refine ⟨h1, fun e he => Nat.le_trans (h2 e he) hle, h3, h4, ?_⟩
  intro j a hj hj1
  obtain ⟨idx, c, hidx, hc, htc, ha⟩ := h5 j a hj hj1
  exact ⟨idx, c, Nat.lt_of_lt_of_le hidx hle, hc, htc, ha⟩

theorem MapInv_mono {cmds : List GpuCommand} {X i i' : Nat} (hle : i ≤ i')
    {v : Option (Image2d × List AccessEntry)} (h : MapInv cmds X i v) :
    MapInv cmds X i' v := by
  cases v with
  | none => trivial
  | some p => exact TsInv_mono hle h

theorem TsInv_singleton {cmds : List GpuCommand} {X i : Nat} {e : AccessEntry}
    (he : e.1 ≤ i) : TsInv cmds X i [e] := by
  refine ⟨by simp, by simpa using he, by simp, by simp, ?_⟩
  intro j a hj hj1
  rw [List.getElem?_eq_some] at hj
  obtain ⟨hlt, -⟩ := hj
  simp at hlt
  omega

theorem TsInv_pair {cmds : List GpuCommand} {X i : Nat} {o n : ImageAccess}
    {idx : Nat} {c : GpuCommand} (hidx : idx < i)
    (hc : cmds[idx]? = Option.some c) (htc : touchesImage X c = true)
    (hon : o ≠ n) : TsInv cmds X i [(idx, o), (idx + 1, n)] := by
  refine ⟨by simp, ?_, ?_, ?_, ?_⟩
  · intro e he
    rcases List.mem_cons.mp he with rfl | he
    · exact Nat.le_of_lt hidx
    · rcases List.mem_cons.mp he with rfl | he
      · exact hidx
      · simp at he
  · simp [List.chain'_cons, hon]
  · simp [List.chain'_cons]
  · intro j a hj hj1
    match j, hj1 with
    | 1, _ =>
        refine ⟨idx, c, hidx, hc, htc, ?_⟩
        simp only [List.getElem?_cons_succ, List.getElem?_cons_zero,
          Option.some.injEq] at hj
        rw [← hj]
    | j + 2, _ =>
        simp at hj

theorem TsInv_append_one {cmds : List GpuCommand} {X i : Nat}
    {ts : List AccessEntry} (h : TsInv cmds X (i + 1) ts) {n : ImageAccess}
    (hlast : (ts.map Prod.snd).getLast? ≠ Option.some n)
    {c : GpuCommand}
    (hc : cmds[i]? = Option.some c) (htc : touchesImage X c = true) :
    TsInv cmds X (i + 1) (ts ++ [(i + 1, n)]) := by
  obtain ⟨h1, h2, h3, h4, h5⟩ := h
  refine ⟨by simp, ?_, ?_, ?_, ?_⟩
  · intro e he
    rcases List.mem_append.mp he with he | he
    · exact h2 e he
    · rw [List.mem_singleton.mp he]
  · rw [List.map_append, List.chain'_append]
    refine ⟨h3, by simp, ?_⟩
    intro x hx y hy
    simp only [List.map_cons, List.map_nil, List.head?_cons, Option.mem_def,
      Option.some.injEq] at hy
    rw [Option.mem_def] at hx
    intro hxy
    rw [hxy, ← hy] at hx
    exact hlast hx
  · rw [List.map_append, List.chain'_append]
    refine ⟨h4, by simp, ?_⟩
    intro x hx y hy
    simp only [List.map_cons, List.map_nil, List.head?_cons, Option.mem_def,
      Option.some.injEq] at hy
    rw [Option.mem_def] at hx
    have hxm : x ∈ ts.map Prod.fst := mem_of_getLast?_eq hx
    obtain ⟨e, he, hex⟩ := List.mem_map.mp hxm
    rw [← hy, ← hex]
    exact h2 e he
  · intro j a hj hj1
    rw [List.getElem?_append] at hj
    by_cases hjl : j < ts.length
    · rw [if_pos hjl] at hj
      exact h5 j a hj hj1
    · rw [if_neg hjl] at hj
      refine ⟨i, c, Nat.lt_succ_self i, hc, htc, ?_⟩
      have hj0 : j - ts.length = 0 := by
        have hlt := (List.getElem?_eq_some.mp hj).1
        simp at hlt
        omega
      rw [hj0] at hj
      simp only [List.getElem?_cons_zero, Option.some.injEq] at hj
      rw [← hj]

/-- Invariant preservation for a single transition push (contributed by the
command at index `i`), on any list already satisfying the invariant, or on a
freshly inserted empty list. -/
theorem TsInv_pushTransition {cmds : List GpuCommand} {X i : Nat}
    {t : ImageTransitionInfo} {c : GpuCommand}
    (hc : cmds[i]? = Option.some c) (ht : t ∈ c.access_transitions)
    (hX : t.image.image = X) {ts : List AccessEntry}
    (h : ts = [] ∨ TsInv cmds X (i + 1) ts) :
    TsInv cmds X (i + 1) (pushTransition i t ts) := by
  obtain ⟨n, hn⟩ := transitions_new_isSome ht
  have htouch : touchesImage X c = true := touches_of_transition ht hX
  rcases h with rfl | hinv
  · cases hold : t.old_access with
    | none =>
        rw [pushTransition, hold, hn]
        exact TsInv_singleton (by simp)
    | some o =>
        rw [pushTransition, hold, hn]
        have hpOld : pushOld i (Option.some o) [] = [(i, o)] := rfl
        rw [hpOld]
        by_cases hon : o = n
        · subst hon
          have hPN : pushNew i (Option.some o) [(i, o)] = [(i, o)] := by
            simp [pushNew]
          rw [hPN]
          exact TsInv_singleton (Nat.le_succ i)
        · have hPN : pushNew i (Option.some n) [(i, o)] = [(i, o), (i + 1, n)] := by
            simp [pushNew, hon]
          rw [hPN]
          exact TsInv_pair (Nat.lt_succ_self i) hc htouch hon
  · have hne : ts ≠ [] := hinv.1
    rcases pushTransition_nonempty i t ts hne with hpush | ⟨n', -, hlast, hpush⟩
    · rw [hpush]
      exact hinv
    · rw [hpush]
      exact TsInv_append_one hinv hlast hc htouch

theorem MapInv_recordTransition {cmds : List GpuCommand} {X i : Nat}
    {t : ImageTransitionInfo} {c : GpuCommand}
    (hc : cmds[i]? = Option.some c) (ht : t ∈ c.access_transitions)
    (m : ImageAccessMap) (h : MapInv cmds X (i + 1) (m X)) :
    MapInv cmds X (i + 1) ((recordTransition i t m) X) := by
  by_cases hX : X = t.image.image
  · subst hX
    rw [recordTransition_key]
    cases hm : m t.image.image with
    | none =>
        show TsInv _ _ _ (pushTransition i t ((Option.none.getD (t.image, [])).2))
        exact TsInv_pushTransition hc ht rfl (Or.inl rfl)
    | some p =>
        rw [hm] at h
        show TsInv _ _ _ (pushTransition i t (((Option.some p).getD (t.image, [])).2))
        exact TsInv_pushTransition hc ht rfl (Or.inr h)
  · rw [recordTransition_ne i t m hX]
    exact h

theorem MapInv_foldRecord {cmds : List GpuCommand} {X i : Nat} {c : GpuCommand}
    (hc : cmds[i]? = Option.some c) :
    ∀ (l : List ImageTransitionInfo), (∀ t ∈ l, t ∈ c.access_transitions) →
      ∀ m : ImageAccessMap, MapInv cmds X (i + 1) (m X) →
      MapInv cmds X (i + 1)
        ((l.foldl (fun acc t => recordTransition i t acc) m) X) := by
  intro l
  induction l with
  | nil => intro _ m h; exact h
  | cons t rest ih =>
      intro hl m h
      rw [List.foldl_cons]
      exact ih (fun t' ht' => hl t' (List.mem_cons_of_mem t ht')) _
        (MapInv_recordTransition hc (hl t (List.mem_cons_self t rest)) m h)

theorem drop_cons_facts {cmds : List GpuCommand} {i : Nat} {c : GpuCommand}
    {rest : List GpuCommand} (h : cmds.drop i = c :: rest) :
    cmds[i]? = Option.some c ∧ cmds.drop (i + 1) = rest := by
  constructor
  · have hg := List.getElem?_drop cmds i 0
    rw [h] at hg
    simpa using hg.symm
  · have hg := List.tail_drop cmds i
    rw [h] at hg
    simpa using hg.symm

theorem MapInv_discoverFrom {cmds : List GpuCommand} {X : Nat} :
    ∀ (suffix : List GpuCommand) (i : Nat) (m : ImageAccessMap),
      cmds.drop i = suffix → MapInv cmds X i (m X) →
      MapInv cmds X (i + suffix.length) ((discoverFrom i suffix m) X) := by
  intro suffix
  induction suffix with
  | nil => intro i m _ h; exact h
  | cons c rest ih =>
      intro i m hdrop h
      obtain ⟨hc, hdrop'⟩ := drop_cons_facts hdrop
      rw [discoverFrom_cons]
      have hstep := MapInv_foldRecord hc c.access_transitions (fun t ht => ht) m
        (MapInv_mono (Nat.le_succ i) h)
      have := ih (i + 1) _ hdrop' hstep
      have harith : i + 1 + rest.length = i + (c :: rest).length := by
        simp only [List.length_cons]
        omega
      rw [harith] at this
      exact this

theorem MapInv_imageAccesses (cmds : List GpuCommand) (X : Nat) :
    MapInv cmds X cmds.length (imageAccesses cmds X) := by
  have h := @MapInv_discoverFrom cmds X cmds 0 (fun _ => Option.none)
    (by simp) trivial
  simpa using h

/-! ### The strictness invariant under `NoSelfBlit` -/

theorem MapStrict_mono {i i' : Nat} (hle : i ≤ i')
    {v : Option (Image2d × List AccessEntry)} (h : MapStrict i v) :
    MapStrict i' v := by
  cases v with
  | none => trivial
  | some p => exact ⟨fun e he => Nat.le_trans (h.1 e he) hle, h.2⟩

theorem strict_pushTransition {i : Nat} {t : ImageTransitionInfo}
    {ts : List AccessEntry}
    (h : ts = [] ∨ ((∀ e ∈ ts, e.1 ≤ i) ∧ (ts.map Prod.fst).Chain' (· < ·))) :
    (∀ e ∈ pushTransition i t ts, e.1 ≤ i + 1)
      ∧ ((pushTransition i t ts).map Prod.fst).Chain' (· < ·) := by
  by_cases hne : ts = []
  · subst hne
    rw [pushTransition]
    cases hold : t.old_access with
    | none =>
        cases hnew : t.new_access with
        | none => exact ⟨by simp [pushOld, pushNew], by simp [pushOld, pushNew]⟩
        | some n =>
            have : pushNew i (Option.some n) (pushOld i Option.none []) = [(i + 1, n)] := rfl
            rw [this]
            exact ⟨by simp, by simp⟩
    | some o =>
        have hpOld : pushOld i (Option.some o) [] = [(i, o)] := rfl
        rw [hpOld]
        cases hnew : t.new_access with
        | none =>
            refine ⟨?_, by simp [pushNew]⟩
            simp only [pushNew]
            intro e he
            rw [List.mem_singleton.mp he]
            exact Nat.le_succ i
        | some n =>
            simp only [pushNew]
            by_cases hcase : (List.map Prod.snd [(i, o)]).getLast? = Option.some n
            · rw [if_pos hcase]
              refine ⟨?_, by simp⟩
              intro e he
              rw [List.mem_singleton.mp he]
              exact Nat.le_succ i
            · rw [if_neg hcase]
              refine ⟨?_, by simp [List.chain'_cons]⟩
              intro e he
              rcases List.mem_cons.mp he with rfl | he
              · exact Nat.le_succ i
              · rw [List.mem_singleton.mp he]
  · obtain ⟨hbound, hchain⟩ := h.resolve_left hne
    rcases pushTransition_nonempty i t ts hne with hpush | ⟨n, -, -, hpush⟩
    · rw [hpush]
      exact ⟨fun e he => Nat.le_trans (hbound e he) (Nat.le_succ i), hchain⟩
    · rw [hpush]
      constructor
      · intro e he
        rcases List.mem_append.mp he with he | he
        · exact Nat.le_trans (hbound e he) (Nat.le_succ i)
        · rw [List.mem_singleton.mp he]
      · rw [List.map_append, List.chain'_append]
        refine ⟨hchain, by simp, ?_⟩
        intro x hx y hy
        simp only [List.map_cons, List.map_nil, List.head?_cons, Option.mem_def,
          Option.some.injEq] at hy
        rw [Option.mem_def] at hx
        have hxm : x ∈ ts.map Prod.fst := mem_of_getLast?_eq hx
        obtain ⟨e, he, hex⟩ := List.mem_map.mp hxm
        rw [← hy, ← hex]
        exact Nat.lt_of_le_of_lt (hbound e he) (Nat.lt_succ_self i)

theorem MapStrict_recordTransition {X i : Nat} (t : ImageTransitionInfo)
    (m : ImageAccessMap) (h : MapStrict i (m X)) :
    MapStrict (i + 1) ((recordTransition i t m) X) := by
  by_cases hX : X = t.image.image
  · subst hX
    rw [recordTransition_key]
    cases hm : m t.image.image with
    | none =>
        show MapStrict (i + 1) (Option.some ((t.image, []).1, pushTransition i t (t.image, ([] : List AccessEntry)).2))
        exact strict_pushTransition (Or.inl rfl)
    | some p =>
        rw [hm] at h
        show MapStrict (i + 1) (Option.some (p.1, pushTransition i t p.2))
        exact strict_pushTransition (Or.inr h)
  · rw [recordTransition_ne i t m hX]
    exact MapStrict_mono (Nat.le_succ i) h

theorem MapStrict_foldRecord {X i : Nat} (c : GpuCommand)
    (hself : ∀ src dst, c = GpuCommand.blitFullImage src dst → src.image ≠ dst.image)
    (m : ImageAccessMap) (h : MapStrict i (m X)) :
    MapStrict (i + 1)
      ((c.access_transitions.foldl (fun acc t => recordTransition i t acc) m) X) := by
  cases c with
  | imageAccessInit img a => exact MapStrict_recordTransition _ m h
  | imageAccessHint img a => exact MapStrict_recordTransition _ m h
  | runRenderPass => exact MapStrict_mono (Nat.le_succ i) h
  | copyBufferToImageComplete buf img => exact MapStrict_recordTransition _ m h
  | blitFullImage src dst =>
      have hne : src.image ≠ dst.image := hself src dst rfl
      show MapStrict (i + 1)
        ((recordTransition i ⟨dst, Option.none, Option.some ImageAccess.transferWrite⟩
          (recordTransition i ⟨src, Option.none, Option.some ImageAccess.transferRead⟩ m)) X)
      by_cases hsx : X = src.image
      · have hdx : X ≠ dst.image := by rw [hsx]; exact hne
        rw [recordTransition_ne _ _ _ hdx]
        exact MapStrict_recordTransition _ m h
      · by_cases hdx : X = dst.image
        · exact MapStrict_recordTransition _ _
            (by rw [recordTransition_ne _ _ _ hsx]; exact h)
        · rw [recordTransition_ne _ _ _ hdx, recordTransition_ne _ _ _ hsx]
          exact MapStrict_mono (Nat.le_succ i) h

theorem MapStrict_discoverFrom {cmds : List GpuCommand} {X : Nat}
    (hsb : NoSelfBlit cmds) :
    ∀ (suffix : List GpuCommand) (i : Nat) (m : ImageAccessMap),
      cmds.drop i = suffix → MapStrict i (m X) →
      MapStrict (i + suffix.length) ((discoverFrom i suffix m) X) := by
  intro suffix
  induction suffix with
  | nil => intro i m _ h; exact h
  | cons c rest ih =>
      intro i m hdrop h
      obtain ⟨hc, hdrop'⟩ := drop_cons_facts hdrop
      have hcmem : c ∈ cmds := List.getElem?_mem hc
      rw [discoverFrom_cons]
      have hstep := MapStrict_foldRecord c
        (fun src dst hceq => hsb src dst (hceq ▸ hcmem)) m h
      have := ih (i + 1) _ hdrop' hstep
      have harith : i + 1 + rest.length = i + (c :: rest).length := by
        simp only [List.length_cons]
        omega
      rw [harith] at this
      exact this

theorem MapStrict_imageAccesses (cmds : List GpuCommand) (X : Nat)
    (hsb : NoSelfBlit cmds) :
    MapStrict cmds.length (imageAccesses cmds X) := by
  have h := @MapStrict_discoverFrom cmds X hsb cmds 0
    (fun _ => Option.none) (by simp) trivial
  simpa using h

/-! ### Unfolding the per-image event stream -/

theorem barrierEventsFor_none {cmds : List GpuCommand} {X : Nat}
    (h : imageAccesses cmds X = Option.none) : barrierEventsFor cmds X = [] := by
  rw [barrierEventsFor, h]

theorem barrierEventsFor_some {cmds : List GpuCommand} {X : Nat} {img : Image2d}
    {ts : List AccessEntry} (h : imageAccesses cmds X = Option.some (img, ts)) :
    barrierEventsFor cmds X
      = (List.range cmds.length).filterMap
          (fun ci => (barrierFor img ts ci).map (fun b => (ci, b))) := by
  rw [barrierEventsFor, h]

theorem transitionsNeeded_none {cmds : List GpuCommand} {X : Nat}
    (h : imageAccesses cmds X = Option.none) : transitionsNeeded cmds X = [] := by
  rw [transitionsNeeded, h]

theorem transitionsNeeded_some {cmds : List GpuCommand} {X : Nat} {img : Image2d}
    {ts : List AccessEntry} (h : imageAccesses cmds X = Option.some (img, ts)) :
    transitionsNeeded cmds X = ts := by
  rw [transitionsNeeded, h]

theorem chain_lt_get {ts : List AccessEntry}
    (h : (ts.map Prod.fst).Chain' (· < ·)) {k j : Nat}
    (hk : k < ts.length) (hj : j < ts.length) (hkj : k < j) :
    (ts.get ⟨k, hk⟩).1 < (ts.get ⟨j, hj⟩).1 := by
  have hpw := List.chain'_iff_pairwise.mp h
  have hlen : (ts.map Prod.fst).length = ts.length := by simp
  have := List.pairwise_iff_get.mp hpw ⟨k, by omega⟩ ⟨j, by omega⟩
    (by exact hkj)
  simpa using this

theorem chain_ne_adjacent {ts : List AccessEntry}
    (h : (ts.map Prod.snd).Chain' (· ≠ ·)) {j : Nat} (hj : j + 1 < ts.length) :
    (ts.get ⟨j, by omega⟩).2 ≠ (ts.get ⟨j + 1, hj⟩).2 := by
  have hlen : (ts.map Prod.snd).length = ts.length := by simp
  have := List.chain'_iff_get.mp h j (by omega)
  simpa using this

/-- Claim C1 (amended): provided no command blits an image onto itself, the
number of barriers `CommandBuffer::record` emits for an image equals the
length of its accumulated (coalesced) access-state sequence minus one: none
for the first accumulated state, exactly one per subsequent state. -/
theorem C1_barrier_count_minimal :
    ∀ (cmds : List GpuCommand) (X : Nat), NoSelfBlit cmds →
      (barrierEventsFor cmds X).length = (accessStates cmds X).length - 1 := by
  intro cmds X hsb
  cases hma : imageAccesses cmds X with
  | none =>
      rw [barrierEventsFor_none hma, accessStates, transitionsNeeded_none hma]
      rfl
  | some entry =>
      obtain ⟨img, ts⟩ := entry
      have hInv : TsInv cmds X cmds.length ts := by
        have h := MapInv_imageAccesses cmds X
        rw [hma] at h
        exact h
      have hStrict : (∀ e ∈ ts, e.1 ≤ cmds.length)
          ∧ (ts.map Prod.fst).Chain' (· < ·) := by
        have h := MapStrict_imageAccesses cmds X hsb
        rw [hma] at h
        exact h
      obtain ⟨hne0, hbound, hchne, hchle, hprov⟩ := hInv
      obtain ⟨-, hchlt⟩ := hStrict
      rw [barrierEventsFor_some hma, length_filterMap_eq_countP]
      have hstates : (accessStates cmds X).length = ts.length := by
        rw [accessStates, transitionsNeeded_some hma]
        simp
      rw [hstates]
      have hpq : ∀ ci ∈ List.range cmds.length,
          (fun ci => ((barrierFor img ts ci).map (fun b => (ci, b))).isSome) ci = true
            ↔ (fun ci => (barrierFor img ts ci).isSome) ci = true := by
        intro ci _
        cases barrierFor img ts ci <;> simp
      rw [List.countP_congr hpq]
      rw [countP_range_bij cmds.length ts.length _ (fun j => decide (1 ≤ j))
        (fun ci => (positionEq (ci + 1) ts).getD 0) ?_ ?_ ?_, countP_range_one_le]
      · intro ci _ hp
        obtain ⟨b, hb⟩ := Option.isSome_iff_exists.mp hp
        obtain ⟨j, a, prev, hpos, hj0, -, -, -, -⟩ := barrierFor_eq_some_elim hb
        constructor
        · show (positionEq (ci + 1) ts).getD 0 < ts.length
          rw [hpos]
          exact positionEq_some_lt hpos
        · show decide (1 ≤ (positionEq (ci + 1) ts).getD 0) = true
          rw [hpos]
          simpa using Nat.one_le_iff_ne_zero.mpr hj0
      · intro ci hci hp ci' hci' hp' hf
        obtain ⟨b, hb⟩ := Option.isSome_iff_exists.mp hp
        obtain ⟨j, a, prev, hpos, -, -, -, -, -⟩ := barrierFor_eq_some_elim hb
        obtain ⟨b', hb'⟩ := Option.isSome_iff_exists.mp hp'
        obtain ⟨j', a', prev', hpos', -, -, -, -, -⟩ := barrierFor_eq_some_elim hb'
        have hjj : j = j' := by
          have h1 : (positionEq (ci + 1) ts).getD 0
              = (positionEq (ci' + 1) ts).getD 0 := hf
          rw [hpos, hpos'] at h1
          simpa using h1
        subst hjj
        obtain ⟨av, hav, hav1⟩ := positionEq_some_get hpos
        obtain ⟨av', hav', hav1'⟩ := positionEq_some_get hpos'
        rw [hav] at hav'
        have heq : av = av' := Option.some.inj hav'
        rw [heq] at hav1
        omega
      · intro j hj hj1
        cases j with
        | zero => simp at hj1
        | succ j' =>
            have hget : ts[j' + 1]? = Option.some (ts.get ⟨j' + 1, hj⟩) :=
              List.getElem?_eq_some.mpr ⟨hj, rfl⟩
            obtain ⟨idx, c, hidx, -, -, hpos1⟩ := hprov (j' + 1) _ hget (by omega)
            have hfirst : ∀ k, k < j' + 1 → ∀ b, ts[k]? = Option.some b →
                b.1 ≠ idx + 1 := by
              intro k hk b hbk
              have hklt : k < ts.length := by omega
              have hbk' : b = ts.get ⟨k, hklt⟩ := by
                obtain ⟨h1, h2⟩ := List.getElem?_eq_some.mp hbk
                rw [← h2]
                rfl
              rw [hbk', ← hpos1]
              exact Nat.ne_of_lt (chain_lt_get hchlt hklt hj hk)
            have hposEq : positionEq (idx + 1) ts = Option.some (j' + 1) :=
              positionEq_complete hget hpos1 hfirst
            have hjlt : j' < ts.length := by omega
            have hprevget : ts[j']? = Option.some (ts.get ⟨j', hjlt⟩) :=
              List.getElem?_eq_some.mpr ⟨hjlt, rfl⟩
            have hneacc : (ts.get ⟨j', hjlt⟩).2 ≠ (ts.get ⟨j' + 1, hj⟩).2 := by
              have h := chain_ne_adjacent hchne hj
              exact h
            have hb := @barrierFor_eq_some_intro img _ _ _ _ _ hposEq
              (Nat.succ_ne_zero j') hget hprevget hneacc
            refine ⟨idx, hidx, ?_, ?_⟩
            · show (barrierFor img ts idx).isSome = true
              rw [hb]
              rfl
            · show (positionEq (idx + 1) ts).getD 0 = j' + 1
              rw [hposEq]
              rfl

/-- Witness for C1 (amended): the three-command scenario list contains no
self-blit, and its single image accumulates 3 states and receives exactly 2
barriers. -/
theorem C1_barrier_count_minimal_witness :
    (barrierEventsFor scenarioCmds imgA.image).length
      = (accessStates scenarioCmds imgA.image).length - 1 :=
  C1_barrier_count_minimal scenarioCmds imgA.image
    (fun src dst hmem => by simp [scenarioCmds] at hmem)

/-! ### First-mention semantics (claim C3) -/

theorem mem_barrierEventsFor {cmds : List GpuCommand} {X : Nat} {img : Image2d}
    {ts : List AccessEntry} (hma : imageAccesses cmds X = Option.some (img, ts))
    {ci : Nat} {b : Barrier} :
    (ci, b) ∈ barrierEventsFor cmds X
      ↔ ci < cmds.length ∧ barrierFor img ts ci = Option.some b := by
  rw [barrierEventsFor_some hma, List.mem_filterMap]
  constructor
  · rintro ⟨a, ha, hfa⟩
    rw [List.mem_range] at ha
    cases hba : barrierFor img ts a with
    | none => rw [hba] at hfa; exact Option.noConfusion hfa
    | some b' =>
        rw [hba] at hfa
        simp only [Option.map_some', Option.some.injEq, Prod.mk.injEq] at hfa
        obtain ⟨rfl, rfl⟩ := hfa
        exact ⟨ha, hba⟩
  · rintro ⟨hci, hba⟩
    exact ⟨ci, List.mem_range.mpr hci, by rw [hba]; rfl⟩

theorem recordTransition_hint_first {i : Nat} {img : Image2d} {a : ImageAccess}
    {m : ImageAccessMap} (hm : m img.image = Option.none) :
    (recordTransition i ⟨img, Option.none, Option.some a⟩ m) img.image
      = Option.some (img, [(i + 1, a)]) := by
  simp [recordTransition, hm, pushTransition, pushOld, pushNew]

theorem recordTransition_init_first {i : Nat} {img : Image2d} {a : ImageAccess}
    {m : ImageAccessMap} (hm : m img.image = Option.none)
    (ha : a ≠ ImageAccess.none) :
    (recordTransition i ⟨img, Option.some ImageAccess.none, Option.some a⟩ m) img.image
      = Option.some (img, [(i, ImageAccess.none), (i + 1, a)]) := by
  have hna : ImageAccess.none ≠ a := fun h => ha h.symm
  simp [recordTransition, hm, pushTransition, pushOld, pushNew, hna]

theorem pushOld_nonempty {i : Nat} {o : Option ImageAccess}
    {ts : List AccessEntry} (h : ts ≠ []) : pushOld i o ts = ts := by
  cases o with
  | none => rfl
  | some o' =>
      simp only [pushOld]
      rw [if_neg (fun h0 => h (List.length_eq_zero.mp h0))]

theorem recordTransition_skip_old {i : Nat} {img : Image2d} {o a : ImageAccess}
    {m : ImageAccessMap} {p : Image2d × List AccessEntry}
    (hm : m img.image = Option.some p) (hne : p.2 ≠ []) :
    recordTransition i ⟨img, Option.some o, Option.some a⟩ m
      = recordTransition i ⟨img, Option.none, Option.some a⟩ m := by
  funext k
  by_cases hk : k = img.image
  · subst hk
    show (if img.image = img.image then
        Option.some (((m img.image).getD (img, [])).1,
          pushTransition i ⟨img, Option.some o, Option.some a⟩
            ((m img.image).getD (img, [])).2)
      else m img.image)
      = if img.image = img.image then
        Option.some (((m img.image).getD (img, [])).1,
          pushTransition i ⟨img, Option.none, Option.some a⟩
            ((m img.image).getD (img, [])).2)
      else m img.image
    rw [if_pos rfl, if_pos rfl, hm]
    show Option.some (p.1, pushNew i (Option.some a) (pushOld i (Option.some o) p.2))
      = Option.some (p.1, pushNew i (Option.some a) (pushOld i Option.none p.2))
    rw [pushOld_nonempty hne]
    rfl
  · rw [recordTransition_ne i _ m hk, recordTransition_ne i _ m hk]

/-- Claim C3 (amended), three parts. (1) An `ImageAccessHint` that is the
first mention of its image establishes the image's assumed starting state —
its access becomes the head accumulated entry, scheduled at the hint's own
index — and no barrier for the image is emitted before the hint.
(2) An `ImageAccessInit` with declared access `≠ None` that is the first
mention records the assumed prior state `None` followed by the declared
access, and a `None →` declared-access barrier is emitted immediately before
the init command.  (3) An `ImageAccessInit` whose image was already mentioned
earlier records no assumed starting state: the whole discovery result is the
same as for an `ImageAccessHint` of the same access, for every image. -/
theorem C3_first_mention_semantics :
    (∀ (pre post : List GpuCommand) (img : Image2d) (a : ImageAccess),
      (∀ c ∈ pre, touchesImage img.image c = false) →
      (transitionsNeeded (pre ++ GpuCommand.imageAccessHint img a :: post)
          img.image).head? = Option.some (pre.length + 1, a)
      ∧ ∀ b : Barrier, (pre.length, b)
          ∉ barrierEventsFor (pre ++ GpuCommand.imageAccessHint img a :: post)
              img.image)
    ∧ (∀ (pre post : List GpuCommand) (img : Image2d) (a : ImageAccess),
      (∀ c ∈ pre, touchesImage img.image c = false) → a ≠ ImageAccess.none →
      (transitionsNeeded (pre ++ GpuCommand.imageAccessInit img a :: post)
          img.image).take 2
        = [(pre.length, ImageAccess.none), (pre.length + 1, a)]
      ∧ (pre.length, ⟨img.image, ImageAccess.none, a, is_format_depth img.format⟩)
          ∈ barrierEventsFor (pre ++ GpuCommand.imageAccessInit img a :: post)
              img.image)
    ∧ (∀ (pre post : List GpuCommand) (img : Image2d) (a : ImageAccess),
      (∃ c ∈ pre, touchesImage img.image c = true) →
      imageAccesses (pre ++ GpuCommand.imageAccessInit img a :: post)
        = imageAccesses (pre ++ GpuCommand.imageAccessHint img a :: post)) := by
  refine ⟨?_, ?_, ?_⟩
  · intro pre post img a hno
    have hpre : (discoverFrom 0 pre (fun _ => Option.none)) img.image
        = Option.none := discoverFrom_no_touch pre 0 _ hno
    have hfold : ((GpuCommand.imageAccessHint img a).access_transitions.foldl
        (fun acc t => recordTransition (0 + pre.length) t acc)
        (discoverFrom 0 pre (fun _ => Option.none))) img.image
        = Option.some (img, [(0 + pre.length + 1, a)]) := by
      show (recordTransition (0 + pre.length)
        ⟨img, Option.none, Option.some a⟩ _) img.image = _
      exact recordTransition_hint_first hpre
    obtain ⟨ext, hfinal, -⟩ :=
      discoverFrom_extend post (0 + pre.length + 1) _ img _ hfold (by simp)
    have hma : imageAccesses (pre ++ GpuCommand.imageAccessHint img a :: post)
        img.image = Option.some (img, (pre.length + 1, a) :: ext) := by
      rw [imageAccesses, discoverFrom_append, discoverFrom_cons, hfinal]
      simp
    constructor
    · rw [transitionsNeeded_some hma]
      rfl
    · intro b hmem
      rw [mem_barrierEventsFor hma] at hmem
      obtain ⟨-, hba⟩ := hmem
      obtain ⟨j, a', prev, hpos, hj0, -, -, -, -⟩ := barrierFor_eq_some_elim hba
      rw [show positionEq (pre.length + 1) ((pre.length + 1, a) :: ext)
          = Option.some 0 from by rw [positionEq]; rw [if_pos rfl]] at hpos
      exact hj0 (Option.some.inj hpos).symm
  · intro pre post img a hno ha
    have hpre : (discoverFrom 0 pre (fun _ => Option.none)) img.image
        = Option.none := discoverFrom_no_touch pre 0 _ hno
    have hfold : ((GpuCommand.imageAccessInit img a).access_transitions.foldl
        (fun acc t => recordTransition (0 + pre.length) t acc)
        (discoverFrom 0 pre (fun _ => Option.none))) img.image
        = Option.some (img,
            [(0 + pre.length, ImageAccess.none), (0 + pre.length + 1, a)]) := by
      show (recordTransition (0 + pre.length)
        ⟨img, Option.some ImageAccess.none, Option.some a⟩ _) img.image = _
      exact recordTransition_init_first hpre ha
    obtain ⟨ext, hfinal, -⟩ :=
      discoverFrom_extend post (0 + pre.length + 1) _ img _ hfold (by simp)
    have hma : imageAccesses (pre ++ GpuCommand.imageAccessInit img a :: post)
        img.image = Option.some (img,
          (pre.length, ImageAccess.none) :: (pre.length + 1, a) :: ext) := by
      rw [imageAccesses, discoverFrom_append, discoverFrom_cons, hfinal]
      simp
    constructor
    · rw [transitionsNeeded_some hma]
      rfl
    · rw [mem_barrierEventsFor hma]
      constructor
      · simp
      · have hpos : positionEq (pre.length + 1)
            ((pre.length, ImageAccess.none) :: (pre.length + 1, a) :: ext)
            = Option.some 1 := by
          rw [positionEq, if_neg (by omega), positionEq, if_pos rfl]
          rfl
        have hb := @barrierFor_eq_some_intro img _ _ _
          (pre.length + 1, a) (pre.length, ImageAccess.none) hpos (Nat.one_ne_zero)
          (by simp) (by simp) (fun h => ha h.symm)
        rw [hb]
  · intro pre post img a hex
    obtain ⟨c, hc, htc⟩ := hex
    have hsome : ((discoverFrom 0 pre (fun _ => Option.none)) img.image).isSome :=
      discoverFrom_isSome_of_touch hc htc 0 _
    obtain ⟨p, hp⟩ := Option.isSome_iff_exists.mp hsome
    have hnep : p.2 ≠ [] := by
      have hinv := MapInv_imageAccesses pre img.image
      rw [show imageAccesses pre = discoverFrom 0 pre (fun _ => Option.none)
        from rfl, hp] at hinv
      exact hinv.1
    rw [imageAccesses, imageAccesses, discoverFrom_append, discoverFrom_append,
      discoverFrom_cons, discoverFrom_cons]
    have heq : ((GpuCommand.imageAccessInit img a).access_transitions.foldl
        (fun acc t => recordTransition (0 + pre.length) t acc)
        (discoverFrom 0 pre (fun _ => Option.none)))
        = ((GpuCommand.imageAccessHint img a).access_transitions.foldl
        (fun acc t => recordTransition (0 + pre.length) t acc)
        (discoverFrom 0 pre (fun _ => Option.none))) := by
      show recordTransition (0 + pre.length)
          ⟨img, Option.some ImageAccess.none, Option.some a⟩ _
        = recordTransition (0 + pre.length) ⟨img, Option.none, Option.some a⟩ _
      exact recordTransition_skip_old hp hnep
    rw [heq]

/-- Witness for C3 (amended): a first-mention `ImageAccessInit` with access
`TransferWrite` on a concrete one-command list records `[None, TransferWrite]`
and emits the `None → TransferWrite` barrier before command 0. -/
theorem C3_first_mention_semantics_witness :
    (transitionsNeeded [GpuCommand.imageAccessInit imgA ImageAccess.transferWrite]
        imgA.image).take 2
      = [(0, ImageAccess.none), (1, ImageAccess.transferWrite)]
    ∧ (0, ⟨imgA.image, ImageAccess.none, ImageAccess.transferWrite,
        is_format_depth imgA.format⟩)
        ∈ barrierEventsFor [GpuCommand.imageAccessInit imgA ImageAccess.transferWrite]
            imgA.image := by
  have h := C3_first_mention_semantics.2.1 [] [] imgA ImageAccess.transferWrite
    (fun c hc => absurd hc (List.not_mem_nil c)) (by decide)
  simpa using h

/-! ### Discovery commutes with filtering out foreign commands (claim C4)

Throughout, `keep` is a predicate retained by `List.filter`; positions of the
original list map to positions of the filtered list through
`fun p => (cmds.take p).countP keep`. -/

theorem countP_take_succ {α : Type} (l : List α) (p : α → Bool) {i : Nat}
    {c : α} (hc : l[i]? = Option.some c) :
    (l.take (i + 1)).countP p
      = (l.take i).countP p + (if p c then 1 else 0) := by
  rw [List.take_succ, hc, List.countP_append]
  cases hp : p c <;> simp [List.countP_cons, hp]

theorem countP_take_mono {α : Type} (l : List α) (p : α → Bool) {i j : Nat}
    (hij : i ≤ j) : (l.take i).countP p ≤ (l.take j).countP p := by
  have hsplit : l.take j = l.take i ++ (l.take j).drop i := by
    conv_lhs => rw [← List.take_append_drop i (l.take j)]
    rw [List.take_take, Nat.min_eq_left hij]
  rw [hsplit, List.countP_append]
  exact Nat.le_add_right _ _

theorem pushOld_map (cmds : List GpuCommand) (keep : GpuCommand → Bool)
    (i : Nat) (o : Option ImageAccess) (ts : List AccessEntry) :
    pushOld ((cmds.take i).countP keep) o
        (ts.map (fun e => ((cmds.take e.1).countP keep, e.2)))
      = (pushOld i o ts).map (fun e => ((cmds.take e.1).countP keep, e.2)) := by
  cases o with
  | none => rfl
  | some o' =>
      by_cases h0 : ts.length = 0
      · rw [List.length_eq_zero.mp h0]
        rfl
      · simp only [pushOld, List.length_map]
        rw [if_neg h0, if_neg h0]

theorem pushNew_map (cmds : List GpuCommand) (keep : GpuCommand → Bool)
    {i : Nat}
    (hCi : (cmds.take (i + 1)).countP keep = (cmds.take i).countP keep + 1)
    (n : Option ImageAccess) (ts : List AccessEntry) :
    pushNew ((cmds.take i).countP keep) n
        (ts.map (fun e => ((cmds.take e.1).countP keep, e.2)))
      = (pushNew i n ts).map (fun e => ((cmds.take e.1).countP keep, e.2)) := by
  cases n with
  | none => rfl
  | some n' =>
      have hsnd : (ts.map (fun e : AccessEntry =>
            ((cmds.take e.1).countP keep, e.2))).map Prod.snd
          = ts.map Prod.snd := by
        rw [List.map_map]
        rfl
      simp only [pushNew, hsnd]
      by_cases hl : (ts.map Prod.snd).getLast? = Option.some n'
      · rw [if_pos hl, if_pos hl]
      · rw [if_neg hl, if_neg hl, List.map_append]
        simp only [List.map_cons, List.map_nil]
        rw [hCi]

theorem pushTransition_map (cmds : List GpuCommand) (keep : GpuCommand → Bool)
    {i : Nat}
    (hCi : (cmds.take (i + 1)).countP keep = (cmds.take i).countP keep + 1)
    (t : ImageTransitionInfo) (ts : List AccessEntry) :
    pushTransition ((cmds.take i).countP keep) t
        (ts.map (fun e => ((cmds.take e.1).countP keep, e.2)))
      = (pushTransition i t ts).map (fun e => ((cmds.take e.1).countP keep, e.2)) := by
  rw [pushTransition, pushTransition, pushOld_map, pushNew_map cmds keep hCi]

theorem recordTransition_map {cmds : List GpuCommand} {keep : GpuCommand → Bool}
    {X i : Nat}
    (hCi : (cmds.take (i + 1)).countP keep = (cmds.take i).countP keep + 1)
    (t : ImageTransitionInfo) (m mf : ImageAccessMap)
    (hrel : mf X = (m X).map (fun p =>
      (p.1, p.2.map (fun e => ((cmds.take e.1).countP keep, e.2))))) :
    (recordTransition ((cmds.take i).countP keep) t mf) X
      = ((recordTransition i t m) X).map (fun p =>
          (p.1, p.2.map (fun e => ((cmds.take e.1).countP keep, e.2)))) := by
  by_cases hX : X = t.image.image
  · subst hX
    rw [recordTransition_key, recordTransition_key, hrel]
    cases hm : m t.image.image with
    | none =>
        have hps := pushTransition_map cmds keep hCi t []
        simp only [List.map_nil] at hps
        simp only [Option.map_none', Option.getD_none, Option.map_some']
        rw [hps]
    | some p =>
        simp only [Option.map_some', Option.getD_some]
        rw [pushTransition_map cmds keep hCi]
  · rw [recordTransition_ne _ t mf hX, recordTransition_ne _ t m hX, hrel]

theorem foldRecord_map {cmds : List GpuCommand} {keep : GpuCommand → Bool}
    {X i : Nat}
    (hCi : (cmds.take (i + 1)).countP keep = (cmds.take i).countP keep + 1) :
    ∀ (l : List ImageTransitionInfo) (m mf : ImageAccessMap),
      mf X = (m X).map (fun p =>
        (p.1, p.2.map (fun e => ((cmds.take e.1).countP keep, e.2)))) →
      (l.foldl (fun acc t => recordTransition ((cmds.take i).countP keep) t acc) mf) X
        = ((l.foldl (fun acc t => recordTransition i t acc) m) X).map (fun p =>
            (p.1, p.2.map (fun e => ((cmds.take e.1).countP keep, e.2)))) := by
  intro l
  induction l with
  | nil => intro m mf hrel; exact hrel
  | cons t rest ih =>
      intro m mf hrel
      rw [List.foldl_cons, List.foldl_cons]
      exact ih _ _ (recordTransition_map hCi t m mf hrel)

theorem discoverFrom_filter_map {cmds : List GpuCommand} {X : Nat}
    {keep : GpuCommand → Bool}
    (hkeep : ∀ c ∈ cmds, touchesImage X c = true → keep c = true) :
    ∀ (suffix : List GpuCommand) (i : Nat) (m mf : ImageAccessMap),
      cmds.drop i = suffix →
      mf X = (m X).map (fun p =>
        (p.1, p.2.map (fun e => ((cmds.take e.1).countP keep, e.2)))) →
      (discoverFrom ((cmds.take i).countP keep) (suffix.filter keep) mf) X
        = ((discoverFrom i suffix m) X).map (fun p =>
            (p.1, p.2.map (fun e => ((cmds.take e.1).countP keep, e.2)))) := by
  intro suffix
  induction suffix with
  | nil => intro i m mf _ hrel; exact hrel
  | cons c rest ih =>
      intro i m mf hdrop hrel
      obtain ⟨hc, hdrop'⟩ := drop_cons_facts hdrop
      by_cases hk : keep c = true
      · rw [List.filter_cons_of_pos hk, discoverFrom_cons, discoverFrom_cons]
        have hCi : (cmds.take (i + 1)).countP keep
            = (cmds.take i).countP keep + 1 := by
          rw [countP_take_succ cmds keep hc, if_pos hk]
        rw [show (cmds.take i).countP keep + 1 = (cmds.take (i + 1)).countP keep
          from hCi.symm]
        exact ih (i + 1) _ _ hdrop' (foldRecord_map hCi c.access_transitions m mf hrel)
      · have htc : touchesImage X c = false := by
          cases htc' : touchesImage X c with
          | false => rfl
          | true => exact absurd (hkeep c (List.getElem?_mem hc) htc') hk
        rw [List.filter_cons_of_neg (by simp [hk]), discoverFrom_cons]
        have hCi : (cmds.take (i + 1)).countP keep = (cmds.take i).countP keep := by
          rw [countP_take_succ cmds keep hc, if_neg hk]
          rfl
        rw [show (cmds.take i).countP keep = (cmds.take (i + 1)).countP keep
          from hCi.symm]
        refine ih (i + 1) _ _ hdrop' ?_
        rw [foldRecord_ne i c.access_transitions m (not_touches_transitions htc)]
        exact hrel

theorem imageAccesses_filter {cmds : List GpuCommand} {X : Nat}
    {keep : GpuCommand → Bool}
    (hkeep : ∀ c ∈ cmds, touchesImage X c = true → keep c = true) :
    imageAccesses (cmds.filter keep) X
      = (imageAccesses cmds X).map (fun p =>
          (p.1, p.2.map (fun e => ((cmds.take e.1).countP keep, e.2)))) := by
  have h := discoverFrom_filter_map hkeep cmds 0 (fun _ => Option.none)
    (fun _ => Option.none) rfl rfl
  simpa [imageAccesses] using h

theorem chain_le_get {ts : List AccessEntry}
    (h : (ts.map Prod.fst).Chain' (· ≤ ·)) {k j : Nat}
    (hk : k < ts.length) (hj : j < ts.length) (hkj : k < j) :
    (ts.get ⟨k, hk⟩).1 ≤ (ts.get ⟨j, hj⟩).1 := by
  have hpw := List.chain'_iff_pairwise.mp h
  have hlen : (ts.map Prod.fst).length = ts.length := by simp
  have := List.pairwise_iff_get.mp hpw ⟨k, by omega⟩ ⟨j, by omega⟩ (by exact hkj)
  simpa using this

theorem getElem?_to_get {l : List AccessEntry} {k : Nat} {b : AccessEntry}
    (h : l[k]? = Option.some b) : ∃ hk : k < l.length, b = l.get ⟨k, hk⟩ := by
  obtain ⟨hk, he⟩ := List.getElem?_eq_some.mp h
  exact ⟨hk, by rw [← he]; rfl⟩

/-- The reindexing `p ↦ (cmds.take p).countP keep` is strictly monotone below
the recorded index of any non-head accumulated entry, because that entry's
scheduling command is kept. -/
theorem C_lt_of_pos_lt {cmds : List GpuCommand} {X : Nat} {keep : GpuCommand → Bool}
    (hkeep : ∀ c ∈ cmds, touchesImage X c = true → keep c = true)
    {ts : List AccessEntry}
    (hprov : ∀ j a, ts[j]? = Option.some a → 1 ≤ j →
      ∃ idx c, idx < cmds.length ∧ cmds[idx]? = Option.some c
        ∧ touchesImage X c = true ∧ a.1 = idx + 1)
    {j : Nat} {a : AccessEntry} (hja : ts[j]? = Option.some a) (hj1 : 1 ≤ j)
    {q : Nat} (hq : q < a.1) :
    (cmds.take q).countP keep < (cmds.take a.1).countP keep := by
  obtain ⟨idx, c, hidx, hc, htc, ha1⟩ := hprov j a hja hj1
  have hkc : keep c = true := hkeep c (List.getElem?_mem hc) htc
  have hCidx : (cmds.take (idx + 1)).countP keep
      = (cmds.take idx).countP keep + 1 := by
    rw [countP_take_succ cmds keep hc, if_pos hkc]
  have hqle : q ≤ idx := by omega
  have h1 : (cmds.take q).countP keep ≤ (cmds.take idx).countP keep :=
    countP_take_mono cmds keep hqle
  have h2 : (cmds.take a.1).countP keep = (cmds.take idx).countP keep + 1 := by
    rw [ha1, hCidx]
  omega

/-- On the accumulated entries, the reindexing is injective in positions: two
entries whose reindexed positions agree had equal positions (one of the two
being a non-head entry). -/
theorem C_pos_inj {cmds : List GpuCommand} {X : Nat} {keep : GpuCommand → Bool}
    (hkeep : ∀ c ∈ cmds, touchesImage X c = true → keep c = true)
    {ts : List AccessEntry}
    (hprov : ∀ j a, ts[j]? = Option.some a → 1 ≤ j →
      ∃ idx c, idx < cmds.length ∧ cmds[idx]? = Option.some c
        ∧ touchesImage X c = true ∧ a.1 = idx + 1)
    (hchle : (ts.map Prod.fst).Chain' (· ≤ ·))
    {j : Nat} {a : AccessEntry} (hja : ts[j]? = Option.some a) (hj1 : 1 ≤ j)
    {k : Nat} {b : AccessEntry} (hkb : ts[k]? = Option.some b)
    (hCeq : (cmds.take b.1).countP keep = (cmds.take a.1).countP keep) :
    b.1 = a.1 := by
  rcases Nat.lt_trichotomy b.1 a.1 with hlt | heq | hgt
  · exact absurd hCeq (Nat.ne_of_lt (C_lt_of_pos_lt hkeep hprov hja hj1 hlt))
  · exact heq
  · have hk1 : 1 ≤ k := by
      by_contra h0
      have hk0 : k = 0 := by omega
      subst hk0
      obtain ⟨hkl, hbe⟩ := getElem?_to_get hkb
      obtain ⟨hjl, hae⟩ := getElem?_to_get hja
      have hle := chain_le_get hchle hkl hjl (by omega)
      rw [← hbe, ← hae] at hle
      omega
    exact absurd hCeq.symm
      (Nat.ne_of_lt (C_lt_of_pos_lt hkeep hprov hkb hk1 hgt))

/-- The emission pass's first-match search finds the same index in the
filtered list's accumulated entries (whose positions are reindexed) as in the
original ones. -/
theorem positionEq_map_iff {cmds : List GpuCommand} {X : Nat}
    {keep : GpuCommand → Bool}
    (hkeep : ∀ c ∈ cmds, touchesImage X c = true → keep c = true)
    {ts : List AccessEntry}
    (hprov : ∀ j a, ts[j]? = Option.some a → 1 ≤ j →
      ∃ idx c, idx < cmds.length ∧ cmds[idx]? = Option.some c
        ∧ touchesImage X c = true ∧ a.1 = idx + 1)
    (hchle : (ts.map Prod.fst).Chain' (· ≤ ·))
    {j : Nat} {a : AccessEntry} (hja : ts[j]? = Option.some a) (hj1 : 1 ≤ j) :
    positionEq a.1 ts = Option.some j
      ↔ positionEq ((cmds.take a.1).countP keep)
          (ts.map (fun e => ((cmds.take e.1).countP keep, e.2)))
        = Option.some j := by
  constructor
  · intro hpos
    apply positionEq_complete (a := ((cmds.take a.1).countP keep, a.2))
    · rw [List.getElem?_map, hja]
      rfl
    · rfl
    · intro k hk b' hb'
      rw [List.getElem?_map] at hb'
      cases hkb : ts[k]? with
      | none => rw [hkb] at hb'; exact absurd hb' (by simp)
      | some b =>
          rw [hkb] at hb'
          simp only [Option.map_some', Option.some.injEq] at hb'
          rw [← hb']
          intro hCeq
          exact positionEq_first hpos k hk b hkb
            (C_pos_inj hkeep hprov hchle hja hj1 hkb hCeq)
  · intro hpos
    apply positionEq_complete hja rfl
    intro k hk b hkb
    intro hbeq
    have hfst := positionEq_first hpos k hk
      ((cmds.take b.1).countP keep, b.2)
      (by rw [List.getElem?_map, hkb]; rfl)
    exact hfst (by rw [hbeq])

/-- Ranks among the commands touching `X` are preserved by the reindexing. -/
theorem rankAmong_filter {cmds : List GpuCommand} {X : Nat}
    {keep : GpuCommand → Bool}
    (hkeep : ∀ c ∈ cmds, touchesImage X c = true → keep c = true)
    (idx : Nat) :
    rankAmong (cmds.filter keep) X ((cmds.take idx).countP keep)
      = rankAmong cmds X idx := by
  rw [rankAmong, rankAmong]
  have hsplit : cmds.filter keep
      = (cmds.take idx).filter keep ++ (cmds.drop idx).filter keep := by
    rw [← List.filter_append, List.take_append_drop]
  have hlen : ((cmds.take idx).filter keep).length = (cmds.take idx).countP keep :=
    (List.countP_eq_length_filter keep (cmds.take idx)).symm
  rw [hsplit, ← hlen, List.take_left, List.countP_filter]
  apply List.countP_congr
  intro c hc
  have hcm : c ∈ cmds := List.take_subset idx cmds hc
  constructor
  · intro h
    exact ((Bool.and_eq_true _ _).mp h).1
  · intro h
    exact (Bool.and_eq_true _ _).mpr ⟨h, hkeep c hcm h⟩

theorem barrierEventsFor_length {cmds : List GpuCommand} {X : Nat}
    {img : Image2d} {ts : List AccessEntry}
    (hma : imageAccesses cmds X = Option.some (img, ts)) :
    (barrierEventsFor cmds X).length
      = (List.range cmds.length).countP (fun ci => (barrierFor img ts ci).isSome) := by
  rw [barrierEventsFor_some hma, length_filterMap_eq_countP]
  apply List.countP_congr
  intro ci _
  cases barrierFor img ts ci <;> simp

/-- A barrier emitted for `X` in the original list is emitted, with the same
payload, in the filtered list, immediately before the same (kept) command. -/
theorem barrier_filter_fwd {cmds : List GpuCommand} {X : Nat}
    {keep : GpuCommand → Bool}
    (hkeep : ∀ c ∈ cmds, touchesImage X c = true → keep c = true)
    {ts : List AccessEntry} {img : Image2d}
    (hprov : ∀ j a, ts[j]? = Option.some a → 1 ≤ j →
      ∃ idx c, idx < cmds.length ∧ cmds[idx]? = Option.some c
        ∧ touchesImage X c = true ∧ a.1 = idx + 1)
    (hchle : (ts.map Prod.fst).Chain' (· ≤ ·))
    {ci : Nat} {b : Barrier} (hb : barrierFor img ts ci = Option.some b) :
    ∃ c, cmds[ci]? = Option.some c ∧ keep c = true ∧ ci < cmds.length
      ∧ barrierFor img (ts.map (fun e => ((cmds.take e.1).countP keep, e.2)))
          ((cmds.take ci).countP keep) = Option.some b
      ∧ (cmds.take (ci + 1)).countP keep = (cmds.take ci).countP keep + 1 := by
  obtain ⟨j, a, prev, hpos, hj0, hget, hprev, hne, hbshape⟩ :=
    barrierFor_eq_some_elim hb
  obtain ⟨av, hav, hav1⟩ := positionEq_some_get hpos
  rw [hget] at hav
  have hava : a = av := Option.some.inj hav
  rw [← hava] at hav1
  have hj1 : 1 ≤ j := Nat.one_le_iff_ne_zero.mpr hj0
  obtain ⟨idx, c, hidx, hc, htc, ha1⟩ := hprov j a hget hj1
  have hidxci : idx = ci := by omega
  subst hidxci
  have hkc : keep c = true := hkeep c (List.getElem?_mem hc) htc
  have hCi : (cmds.take (idx + 1)).countP keep
      = (cmds.take idx).countP keep + 1 := by
    rw [countP_take_succ cmds keep hc, if_pos hkc]
  have hposA : positionEq a.1 ts = Option.some j := by
    rw [ha1]
    exact hpos
  have hpos' := (positionEq_map_iff hkeep hprov hchle hget hj1).mp hposA
  have htarget : (cmds.take idx).countP keep + 1 = (cmds.take a.1).countP keep := by
    rw [ha1, hCi]
  have hposF : positionEq ((cmds.take idx).countP keep + 1)
      (ts.map (fun e => ((cmds.take e.1).countP keep, e.2))) = Option.some j := by
    rw [htarget]
    exact hpos'
  have hgetF : (ts.map (fun e => ((cmds.take e.1).countP keep, e.2)))[j]?
      = Option.some ((cmds.take a.1).countP keep, a.2) := by
    rw [List.getElem?_map, hget]
    rfl
  have hprevF : (ts.map (fun e => ((cmds.take e.1).countP keep, e.2)))[j - 1]?
      = Option.some ((cmds.take prev.1).countP keep, prev.2) := by
    rw [List.getElem?_map, hprev]
    rfl
  have hb' := @barrierFor_eq_some_intro img _ _ _ _ _ hposF hj0 hgetF hprevF hne
  refine ⟨c, hc, hkc, hidx, ?_, hCi⟩
  rw [hb', hbshape]

/-- A barrier emitted for `X` in the filtered list comes from one emitted in
the original list, immediately before the corresponding kept command. -/
theorem barrier_filter_bwd {cmds : List GpuCommand} {X : Nat}
    {keep : GpuCommand → Bool}
    (hkeep : ∀ c ∈ cmds, touchesImage X c = true → keep c = true)
    {ts : List AccessEntry} {img : Image2d}
    (hprov : ∀ j a, ts[j]? = Option.some a → 1 ≤ j →
      ∃ idx c, idx < cmds.length ∧ cmds[idx]? = Option.some c
        ∧ touchesImage X c = true ∧ a.1 = idx + 1)
    (hchle : (ts.map Prod.fst).Chain' (· ≤ ·))
    {ci' : Nat} {b : Barrier}
    (hb : barrierFor img (ts.map (fun e => ((cmds.take e.1).countP keep, e.2))) ci'
      = Option.some b) :
    ∃ idx c, cmds[idx]? = Option.some c ∧ keep c = true ∧ idx < cmds.length
      ∧ ci' = (cmds.take idx).countP keep
      ∧ barrierFor img ts idx = Option.some b := by
  obtain ⟨j, a', prev', hpos', hj0, hget', hprev', hne', hbshape⟩ :=
    barrierFor_eq_some_elim hb
  rw [List.getElem?_map] at hget' hprev'
  cases hja : ts[j]? with
  | none => rw [hja] at hget'; exact absurd hget' (by simp)
  | some a =>
  cases hjp : ts[j - 1]? with
  | none => rw [hjp] at hprev'; exact absurd hprev' (by simp)
  | some prev =>
  rw [hja] at hget'
  rw [hjp] at hprev'
  simp only [Option.map_some', Option.some.injEq] at hget' hprev'
  have hj1 : 1 ≤ j := Nat.one_le_iff_ne_zero.mpr hj0
  obtain ⟨idx, c, hidx, hc, htc, ha1⟩ := hprov j a hja hj1
  have hkc : keep c = true := hkeep c (List.getElem?_mem hc) htc
  have hCi : (cmds.take (idx + 1)).countP keep
      = (cmds.take idx).countP keep + 1 := by
    rw [countP_take_succ cmds keep hc, if_pos hkc]
  obtain ⟨av', hav', hav1'⟩ := positionEq_some_get hpos'
  rw [List.getElem?_map, hja] at hav'
  simp only [Option.map_some', Option.some.injEq] at hav'
  have hciC : ci' + 1 = (cmds.take a.1).countP keep := by
    rw [← hav1', ← hav']
  have hciC' : ci' = (cmds.take idx).countP keep := by
    have : (cmds.take a.1).countP keep = (cmds.take idx).countP keep + 1 := by
      rw [ha1, hCi]
    omega
  have hposG : positionEq a.1 ts = Option.some j := by
    apply (positionEq_map_iff hkeep hprov hchle hja hj1).mpr
    rw [← hciC]
    exact hpos'
  have hposIdx : positionEq (idx + 1) ts = Option.some j := by
    rw [← ha1]
    exact hposG
  have hneG : prev.2 ≠ a.2 := by
    intro h
    apply hne'
    rw [← hget', ← hprev']
    exact h
  have hbG := @barrierFor_eq_some_intro img _ _ _ _ _ hposIdx hj0 hja hjp hneG
  refine ⟨idx, c, hc, hkc, hidx, hciC', ?_⟩
  rw [hbG, hbshape, ← hget', ← hprev']

/-- Claim C4: for two images `A`, `B` such that no single command touches
both, deleting every command that touches `B` changes nothing about the
barriers emitted for `A`: same count, and the same barriers (same source and
destination accesses) placed immediately before the same dependent commands
of `A` (identified by their rank among the commands touching `A`); the
commands touching `A` themselves are untouched by the deletion. -/
theorem C4_cross_image_independence :
    ∀ (cmds : List GpuCommand) (A B : Nat),
      (∀ c ∈ cmds, touchesImage A c = true → touchesImage B c = false) →
      (annotatedEventsFor (cmds.filter (fun c => !(touchesImage B c))) A).length
          = (annotatedEventsFor cmds A).length
      ∧ (∀ p : Nat × Barrier,
          p ∈ annotatedEventsFor (cmds.filter (fun c => !(touchesImage B c))) A
            ↔ p ∈ annotatedEventsFor cmds A)
      ∧ (cmds.filter (fun c => !(touchesImage B c))).filter (touchesImage A)
          = cmds.filter (touchesImage A) := by
  intro cmds A B hAB
  have hkeep : ∀ c ∈ cmds, touchesImage A c = true
      → (fun c => !(touchesImage B c)) c = true := by
    intro c hc htc
    simp [hAB c hc htc]
  have h3 : (cmds.filter (fun c => !(touchesImage B c))).filter (touchesImage A)
      = cmds.filter (touchesImage A) := by
    rw [List.filter_filter]
    apply List.filter_congr
    intro c hc
    cases htc : touchesImage A c with
    | true => simp [hAB c hc htc]
    | false => simp
  cases hma : imageAccesses cmds A with
  | none =>
      have hma' : imageAccesses (cmds.filter (fun c => !(touchesImage B c))) A
          = Option.none := by
        rw [imageAccesses_filter hkeep, hma]
        rfl
      refine ⟨?_, ?_, h3⟩
      · rw [annotatedEventsFor, annotatedEventsFor, barrierEventsFor_none hma,
          barrierEventsFor_none hma']
        rfl
      · intro p
        rw [annotatedEventsFor, annotatedEventsFor, barrierEventsFor_none hma,
          barrierEventsFor_none hma']
        simp
  | some entry =>
      obtain ⟨img, ts⟩ := entry
      have hma' : imageAccesses (cmds.filter (fun c => !(touchesImage B c))) A
          = Option.some (img, ts.map (fun e =>
              ((cmds.take e.1).countP (fun c => !(touchesImage B c)), e.2))) := by
        rw [imageAccesses_filter hkeep, hma]
        rfl
      have hInv : TsInv cmds A cmds.length ts := by
        have h := MapInv_imageAccesses cmds A
        rw [hma] at h
        exact h
      obtain ⟨-, -, -, hchle, hprov⟩ := hInv
      have hlenF : (cmds.filter (fun c => !(touchesImage B c))).length
          = (cmds.countP (fun c => !(touchesImage B c))) :=
        (List.countP_eq_length_filter _ cmds).symm
      have hCbound : ∀ x : Nat, x ≤ cmds.length →
          (cmds.take x).countP (fun c => !(touchesImage B c))
            ≤ (cmds.filter (fun c => !(touchesImage B c))).length := by
        intro x hx
        rw [hlenF]
        have := countP_take_mono cmds (fun c => !(touchesImage B c)) hx
        rwa [List.take_length] at this
      refine ⟨?_, ?_, h3⟩
      · rw [annotatedEventsFor, annotatedEventsFor, List.length_map,
          List.length_map, barrierEventsFor_length hma', barrierEventsFor_length hma]
        refine (countP_range_bij cmds.length
          (cmds.filter (fun c => !(touchesImage B c))).length _ _
          (fun ci => (cmds.take ci).countP (fun c => !(touchesImage B c)))
          ?_ ?_ ?_).symm
        · intro ci hci hp
          obtain ⟨b, hb⟩ := Option.isSome_iff_exists.mp hp
          obtain ⟨c, hc, hkc, -, hbF, hCi⟩ :=
            barrier_filter_fwd hkeep hprov hchle hb
          have hbound := hCbound (ci + 1) (by omega)
          have hlt : (cmds.take ci).countP (fun c => !(touchesImage B c))
              < (cmds.filter (fun c => !(touchesImage B c))).length := by omega
          refine ⟨hlt, ?_⟩
          show (barrierFor img (ts.map (fun e =>
              ((cmds.take e.1).countP (fun c => !(touchesImage B c)), e.2)))
              ((cmds.take ci).countP (fun c => !(touchesImage B c)))).isSome = true
          rw [hbF]
          rfl
        · intro ci hci hp ci2 hci2 hp2 hf
          obtain ⟨b, hb⟩ := Option.isSome_iff_exists.mp hp
          obtain ⟨c, hc, hkc, -, -, hCi⟩ :=
            barrier_filter_fwd hkeep hprov hchle hb
          obtain ⟨b2, hb2⟩ := Option.isSome_iff_exists.mp hp2
          obtain ⟨c2, hc2, hkc2, -, -, hCi2⟩ :=
            barrier_filter_fwd hkeep hprov hchle hb2
          have hf2 : (cmds.take ci).countP (fun c => !(touchesImage B c))
              = (cmds.take ci2).countP (fun c => !(touchesImage B c)) := hf
          rcases Nat.lt_trichotomy ci ci2 with hlt | heq | hgt
          · have hmono := countP_take_mono cmds (fun c => !(touchesImage B c))
              (show ci + 1 ≤ ci2 from hlt)
            omega
          · exact heq
          · have hmono := countP_take_mono cmds (fun c => !(touchesImage B c))
              (show ci2 + 1 ≤ ci from hgt)
            omega
        · intro ci' hci' hq
          obtain ⟨b, hb⟩ := Option.isSome_iff_exists.mp hq
          obtain ⟨idx, c, hc, hkc, hidx, hciC, hbG⟩ :=
            barrier_filter_bwd hkeep hprov hchle hb
          refine ⟨idx, hidx, ?_, hciC.symm⟩
          show (barrierFor img ts idx).isSome = true
          rw [hbG]
          rfl
      · intro p
        constructor
        · intro hp
          rw [annotatedEventsFor, List.mem_map] at hp
          obtain ⟨e, he, hpe⟩ := hp
          obtain ⟨ci', bev⟩ := e
          rw [mem_barrierEventsFor hma'] at he
          obtain ⟨hcilt, hbF⟩ := he
          obtain ⟨idx, c, hc, hkc, hidx, hciC, hbG⟩ :=
            barrier_filter_bwd hkeep hprov hchle hbF
          rw [annotatedEventsFor, List.mem_map]
          refine ⟨(idx, bev), (mem_barrierEventsFor hma).mpr ⟨hidx, hbG⟩, ?_⟩
          rw [← hpe]
          show (rankAmong cmds A idx, bev) = (rankAmong _ A ci', bev)
          rw [hciC, rankAmong_filter hkeep idx]
        · intro hp
          rw [annotatedEventsFor, List.mem_map] at hp
          obtain ⟨e, he, hpe⟩ := hp
          obtain ⟨ci, bev⟩ := e
          rw [mem_barrierEventsFor hma] at he
          obtain ⟨hcilt, hbG⟩ := he
          obtain ⟨c, hc, hkc, -, hbF, hCi⟩ :=
            barrier_filter_fwd hkeep hprov hchle hbG
          rw [annotatedEventsFor, List.mem_map]
          refine ⟨((cmds.take ci).countP (fun c => !(touchesImage B c)), bev),
            (mem_barrierEventsFor hma').mpr ⟨?_, hbF⟩, ?_⟩
          · have hbound := hCbound (ci + 1) (by omega)
            omega
          · rw [← hpe]
            show (rankAmong _ A ((cmds.take ci).countP (fun c => !(touchesImage B c))), bev)
              = (rankAmong cmds A ci, bev)
            rw [rankAmong_filter hkeep ci]

/-- Witness for C4: on the five-command interleaving of `imgA` and `imgB`
commands, dropping the `imgB` commands leaves `imgA` with the same two
annotated barriers. -/
theorem C4_cross_image_independence_witness :
    (annotatedEventsFor (twoImageCmds.filter (fun c => !(touchesImage 2 c))) 1).length
        = (annotatedEventsFor twoImageCmds 1).length
    ∧ ((1, (⟨1, ImageAccess.none, ImageAccess.transferWrite, false⟩ : Barrier))
        ∈ annotatedEventsFor (twoImageCmds.filter (fun c => !(touchesImage 2 c))) 1
          ↔ (1, (⟨1, ImageAccess.none, ImageAccess.transferWrite, false⟩ : Barrier))
            ∈ annotatedEventsFor twoImageCmds 1) := by
  have h := C4_cross_image_independence twoImageCmds 1 2 (by decide)
  exact ⟨h.1, h.2.1 _⟩

end Residue
